import Mathlib

/-!
Verification of the minesweeper-submarine simulation engine (`yewno.py`).

The Python source is shallowly embedded below.  Mutable objects become
immutable structures; object references become cell ids (the source gives
every `Cubby` a unique sequential `cubby_id`, which `remove_mine_location`
itself uses as object identity); Python runtime errors (`KeyError`,
`IndexError`, `AttributeError`) become `Option.none`; Python machine-free
integers become `Int`/`Nat`.  Strings are handled as `List Char` via the
`String.data` field, mirroring `str.split(' ')` / `str.strip()` directly.
The `--show-ship` debug marker path is not modelled: the embedding follows
the default `show_ship=False` behaviour.  The viewport renderer (`radar`)
only reads state (its slices copy the row lists) and is omitted: no claim
concerns rendering, and on the concrete fields used below it cannot fail.
-/

namespace Yewno

/-- Python `str.split(sep=' ')`: split on every single space, keeping empty
fields (the caller filters those out, as the source does). -/
def pySplitSp : List Char → List Char → List (List Char)
  | [], acc => [acc.reverse]
  | c :: cs, acc =>
    if c = ' ' then acc.reverse :: pySplitSp cs []
    else pySplitSp cs (c :: acc)

/-- Characters removed by Python `str.strip()` (ASCII whitespace). -/
def isPySpace (c : Char) : Bool :=
  c = ' ' || c = '\t' || c = '\n' || c = '\r' || c = '\x0b' || c = '\x0c'

/-- Python `str.strip()` on a character list. -/
def pyStrip (l : List Char) : List Char :=
  ((l.dropWhile isPySpace).reverse.dropWhile isPySpace).reverse

/-- Python list indexing `l[i]`: non-negative indices from the front,
negative indices from the back, `IndexError` (= `none`) otherwise. -/
def pyIdx {α : Type} (l : List α) (i : Int) : Option α :=
  if 0 ≤ i ∧ i < (l.length : Int) then l.get? i.toNat
  else if -(l.length : Int) ≤ i ∧ i < 0 then l.get? ((l.length : Int) + i).toNat
  else none

/-- Python `list.pop(i)` for a non-negative index: remove the element,
`IndexError` (= `none`) when out of range. -/
def pyPop {α : Type} (l : List α) (i : Nat) : Option (List α) :=
  if i < l.length then some (l.eraseIdx i) else none

/-- Python `str.find` restricted to single characters: first index, `-1`
when absent. -/
def pyFind (l : List Char) (c : Char) : Int :=
  match l.findIdx? (fun d => d = c) with
  | some i => (i : Int)
  | none => -1

/-- `MINE_PASSED_MARKER`. -/
def MINE_PASSED_MARKER : Char := '*'

/-- `EMPTY_SPACE_MARKER`. -/
def EMPTY_SPACE_MARKER : Char := '.'

/-- `MINE_MARKERS = MINE_PASSED_MARKER + string.ascii_letters` (53 symbols). -/
def MINE_MARKERS : List Char :=
  ['*',
   'a', 'b', 'c', 'd', 'e', 'f', 'g', 'h', 'i', 'j', 'k', 'l', 'm',
   'n', 'o', 'p', 'q', 'r', 's', 't', 'u', 'v', 'w', 'x', 'y', 'z',
   'A', 'B', 'C', 'D', 'E', 'F', 'G', 'H', 'I', 'J', 'K', 'L', 'M',
   'N', 'O', 'P', 'Q', 'R', 'S', 'T', 'U', 'V', 'W', 'X', 'Y', 'Z']

/-- `PASS` / `FAIL` verdict strings. -/
def PASS : List Char := ['p', 'a', 's', 's']

/-- `FAIL` verdict string. -/
def FAIL : List Char := ['f', 'a', 'i', 'l']

/-- The four direction command words and the `DOWN = ''` token. -/
def NORTH : List Char := ['n', 'o', 'r', 't', 'h']

def SOUTH : List Char := ['s', 'o', 'u', 't', 'h']

def EAST : List Char := ['e', 'a', 's', 't']

def WEST : List Char := ['w', 'e', 's', 't']

def DOWN : List Char := []

/-- The four torpedo command words. -/
def ALPHA : List Char := ['a', 'l', 'p', 'h', 'a']

def BETA : List Char := ['b', 'e', 't', 'a']

def GAMMA : List Char := ['g', 'a', 'm', 'm', 'a']

def DELTA : List Char := ['d', 'e', 'l', 't', 'a']

/-- String-keyed half of `MOVEMENT_MAP`: direction word to unit vector.
Other string keys raise `KeyError` (= `none`). -/
def movementVecMap (w : List Char) : Option (Int × Int) :=
  if w = NORTH then some (0, 1)
  else if w = SOUTH then some (0, -1)
  else if w = EAST then some (1, 0)
  else if w = WEST then some (-1, 0)
  else none

/-- Membership test `token in MOVEMENT_MAP` for a string token: only the
four direction-word keys can match a string. -/
def isMovementKey (w : List Char) : Bool :=
  w = NORTH || w = SOUTH || w = EAST || w = WEST

/-- Tuple-keyed half of `MOVEMENT_MAP`: offset vector to compass-word hop
chain. -/
def movementDirsMap (p : Int × Int) : Option (List (List Char)) :=
  if p = (-1, -1) then some [SOUTH, WEST]
  else if p = (-1, 0) then some [WEST]
  else if p = (-1, 1) then some [NORTH, WEST]
  else if p = (0, 1) then some [NORTH]
  else if p = (1, 1) then some [NORTH, EAST]
  else if p = (1, 0) then some [EAST]
  else if p = (1, -1) then some [SOUTH, EAST]
  else if p = (0, -1) then some [SOUTH]
  else if p = (0, 0) then some [DOWN]
  else none

/-- `FIRING_PATTERN_MAP`; unknown keys raise `KeyError` (= `none`). -/
def firingPatternMap (w : List Char) : Option (List (Int × Int)) :=
  if w = ALPHA then some [(-1, -1), (-1, 1), (1, -1), (1, 1)]
  else if w = BETA then some [(-1, 0), (0, -1), (0, 1), (1, 0)]
  else if w = GAMMA then some [(-1, 0), (0, 0), (1, 0)]
  else if w = DELTA then some [(0, -1), (0, 0), (0, 1)]
  else none

/-- Membership test `token in FIRING_PATTERN_MAP` for a string token. -/
def isFiringKey (w : List Char) : Bool :=
  w = ALPHA || w = BETA || w = GAMMA || w = DELTA

/-- One grid element (`class Cubby`).  `z` is the display symbol, `depth`
the (negative) decay counter (`None` for non-mines), `id` the sequential
`cubby_id` used as object identity.  Neighbor attributes are not stored:
the constructor links each cell to the positionally adjacent cells, so
neighbor access is modelled as positional lookup (`Cuboid.neighborAttr`). -/
structure Cubby where
  x : Int
  y : Int
  z : Char
  id : Nat
  depth : Option Int
  mine : Bool
  mine_passed : Bool
  deriving DecidableEq, Repr

/-- `Cubby.__init__`. -/
def Cubby.init (x y : Int) (ch : Char) (cubby_id : Nat) : Cubby :=
  if ch ≠ EMPTY_SPACE_MARKER then
    { x := x, y := y, z := ch, id := cubby_id,
      depth := some (-1 * (pyFind MINE_MARKERS ch + 1)),
      mine := true, mine_passed := false }
  else
    { x := x, y := y, z := ch, id := cubby_id,
      depth := none, mine := false, mine_passed := false }

/-- `Cubby.destroy_mine` success branch: clear the mine state. -/
def Cubby.destroy_result (c : Cubby) : Cubby :=
  { c with mine := false, z := EMPTY_SPACE_MARKER, depth := none }

/-- `Cubby.update_depth`: recompute the symbol from the depth counter;
mark `mine_passed` on the sentinel, otherwise advance `depth`.  `none`
models the `TypeError`/`IndexError` a `None` depth or out-of-range index
would raise. -/
def Cubby.update_depth (c : Cubby) : Option Cubby := do
  let d ← c.depth
  let ch ← pyIdx MINE_MARKERS (-d - 2)
  if ch = MINE_PASSED_MARKER then
    pure { c with z := ch, mine_passed := true }
  else
    pure { c with z := ch, depth := some (d + 1) }

/-- `Cubby.mine_location`: the `(x, y, self)` registry triple, the
reference rendered as the cell id. -/
def Cubby.mine_location (c : Cubby) : Int × Int × Nat := (c.x, c.y, c.id)

/-- One row of the construction loop in `Cuboid.__init__`: `enumerate`
gives `x`, the running `cubby_id` counter gives the id. -/
def buildRow (y : Nat) : Nat → Nat → List Char → List Cubby
  | _, _, [] => []
  | x, cid, ch :: rest => Cubby.init x y ch cid :: buildRow y (x + 1) (cid + 1) rest

/-- The registry entries a row contributes, in append order: one per
non-empty symbol. -/
def rowMines (row : List Cubby) : List (Int × Int × Nat) :=
  (row.filter (fun c => c.z ≠ EMPTY_SPACE_MARKER)).map Cubby.mine_location

/-- The row loop of `Cuboid.__init__`.  Linking a row longer than its
predecessor indexes `matrix[-1][x]` out of range, an `IndexError`
(= `none`); otherwise the links are exactly positional adjacency, which
`Cuboid.neighborAttr` reproduces. -/
def buildRows : Nat → Nat → Option Nat → List (List Char) →
    Option (List (List Cubby) × List (Int × Int × Nat))
  | _, _, _, [] => some ([], [])
  | y, cid, prevLen, line :: rest =>
    if (match prevLen with
        | some pl => decide (pl < line.length)
        | none => false) then
      none
    else do
      let row := buildRow y 0 cid line
      let (matrix, mines) ← buildRows (y + 1) (cid + line.length) (some line.length) rest
      pure (row :: matrix, rowMines row ++ mines)

/-- The mine field (`class Cuboid`): the cell matrix, the active-mine
registry (`mine_locations`, entries `(x, y, ref)` with the reference as a
cell id), and `dimensions = (len(matrix), len(matrix[0]), 0)`. -/
structure Cuboid where
  matrix : List (List Cubby)
  mine_locations : List (Int × Int × Nat)
  dimensions : Nat × Nat × Nat
  deriving DecidableEq, Repr

/-- `Cuboid.__init__` from the field-file lines: strip each line, drop
blank lines, build the linked matrix and registry.  `none` models the
construction-time `IndexError`s (a row longer than its predecessor, or an
empty field for `matrix[0]`). -/
def Cuboid.init (field_lines : List (List Char)) : Option Cuboid := do
  let fields := (field_lines.map pyStrip).filter (fun f => f ≠ [])
  let (matrix, mines) ← buildRows 0 0 none fields
  match matrix with
  | [] => none
  | r0 :: _ =>
    pure { matrix := matrix, mine_locations := mines,
           dimensions := (matrix.length, r0.length, 0) }

/-- All cells of the cuboid in row-major (construction) order. -/
def Cuboid.cells (cb : Cuboid) : List Cubby := cb.matrix.flatten

/-- Dereference a stored cell reference: the unique cell carrying this
`cubby_id` (ids are distinct by construction). -/
def Cuboid.getById (cb : Cuboid) (i : Nat) : Option Cubby :=
  cb.cells.find? (fun c => c.id = i)

/-- The scan loop of `Cuboid.remove_mine_location`: index of the first
entry whose referenced cell has the given id, `none` when the loop never
breaks. -/
def findMineIndex (mineId : Nat) : List (Int × Int × Nat) → Option Nat
  | [] => none
  | e :: es =>
    if e.2.2 = mineId then some 0 else (findMineIndex mineId es).map (· + 1)

/-- `Cuboid.remove_mine_location`: linear scan for the first entry whose
referenced cell has the given id (`mine_index` stays at its initial `0`
when the loop never breaks), then `list.pop`. -/
def Cuboid.remove_mine_location (cb : Cuboid) (mineId : Nat) : Option Cuboid :=
  let mine_index := (findMineIndex mineId cb.mine_locations).getD 0
  (pyPop cb.mine_locations mine_index).map
    (fun l => { cb with mine_locations := l })

/-- Apply a fallible per-cell mutation to each cell of a row. -/
def updCell (f : Cubby → Option Cubby) : List Cubby → Option (List Cubby)
  | [] => some []
  | c :: cs => do
    let c' ← f c
    let cs' ← updCell f cs
    pure (c' :: cs')

/-- Apply a fallible per-cell mutation to every cell of the matrix. -/
def updMatrix (f : Cubby → Option Cubby) :
    List (List Cubby) → Option (List (List Cubby))
  | [] => some []
  | r :: rs => do
    let r' ← updCell f r
    let rs' ← updMatrix f rs
    pure (r' :: rs')

/-- Mutation of one referenced cell (`mine.update_depth()`): the cell with
the entry's id is decayed in place, every other cell is untouched. -/
def Cuboid.updateDepthById (cb : Cuboid) (i : Nat) : Option Cuboid :=
  (updMatrix (fun c => if c.id = i then c.update_depth else some c) cb.matrix).map
    (fun m => { cb with matrix := m })

/-- The registry loop of `Cuboid.update_depths`. -/
def updateDepthsLoop : Cuboid → List (Int × Int × Nat) → Option Cuboid
  | cb, [] => some cb
  | cb, e :: es => do
    let cb' ← cb.updateDepthById e.2.2
    updateDepthsLoop cb' es

/-- `Cuboid.update_depths`: decay every currently registered mine, in
registry order. -/
def Cuboid.update_depths (cb : Cuboid) : Option Cuboid :=
  updateDepthsLoop cb cb.mine_locations

/-- In-place mutation of the single cell object with a given id
(`destroy_mine` acts through a reference; ids are object identity). -/
def Cuboid.mapCellById (cb : Cuboid) (i : Nat) (f : Cubby → Cubby) : Cuboid :=
  { cb with matrix := cb.matrix.map (fun r => r.map (fun c => if c.id = i then f c else c)) }

/-- The cell stored at matrix position `(row, col)`. -/
def Cuboid.cellAt (cb : Cuboid) (p : Nat × Nat) : Option Cubby := do
  let row ← cb.matrix.get? p.1
  row.get? p.2

/-- `getattr(cubby, direction)` for the four neighbor attributes, as the
construction links them: `north`/`south` step one row, `east`/`west` one
column, `None` (= `some none`) past an edge; an unknown attribute name is
an `AttributeError` (= `none`).  For `south`/`east` the target row's
length bounds the link exactly as `Cuboid.__init__` set it. -/
def Cuboid.neighborAttr (cb : Cuboid) (p : Nat × Nat) (dir : List Char) :
    Option (Option (Nat × Nat)) :=
  if dir = NORTH then
    some (if 0 < p.1 then some (p.1 - 1, p.2) else none)
  else if dir = SOUTH then
    some (match cb.matrix.get? (p.1 + 1) with
          | some row => if p.2 < row.length then some (p.1 + 1, p.2) else none
          | none => none)
  else if dir = EAST then
    some (match cb.matrix.get? p.1 with
          | some row => if p.2 + 1 < row.length then some (p.1, p.2 + 1) else none
          | none => none)
  else if dir = WEST then
    some (if 0 < p.2 then some (p.1, p.2 - 1) else none)
  else none

/-- `class Ship`: position, depth counter, the `current_cubby` reference
(`Option` because a move past an edge stores `None`), the scoring
counters, and the owned cuboid.  `current` is the matrix position of the
referenced cell. -/
structure Ship where
  cuboid : Cuboid
  commands : List (List Char)
  x : Int
  y : Int
  z : Int
  current : Option (Nat × Nat)
  number_of_moves_made : Nat
  number_of_vollys_fired : Nat
  number_of_initial_mines : Nat
  number_of_commands_left : Int
  starting_score : Int
  deriving DecidableEq, Repr

/-- `Ship.__init__`: strip the script lines, place the ship at
`x = dimensions[0]/2`, `y = dimensions[1]/2` (note: `dimensions[0]` is the
row count), depth `0`, `current_cubby = matrix[self.y][self.x]` (an
out-of-range index is an `IndexError`, = `none`), and snapshot the
counters. -/
def Ship.init (cuboid : Cuboid) (script_lines : List (List Char)) : Option Ship :=
  let commands := script_lines.map pyStrip
  let x : Int := (cuboid.dimensions.1 : Int) / 2
  let y : Int := (cuboid.dimensions.2.1 : Int) / 2
  match pyIdx cuboid.matrix y with
  | none => none
  | some row =>
    match pyIdx row x with
    | none => none
    | some _ =>
      some { cuboid := cuboid, commands := commands, x := x, y := y, z := 0,
             current := some (y.toNat, x.toNat),
             number_of_moves_made := 0,
             number_of_vollys_fired := 0,
             number_of_initial_mines := cuboid.mine_locations.length,
             number_of_commands_left := (commands.length : Int),
             starting_score := 10 * (cuboid.mine_locations.length : Int) }

/-- `Ship._handle_command_line`: tokenize on single spaces dropping empty
tokens; two tokens are validated against both vocabularies, a single
token is a movement if it is a direction word and is otherwise kept as
the torpedo token unvalidated; any other token count resolves to neither.
`self.z -= 1` fires whenever the movement result is not the empty string
(`None` compares unequal to `''` in Python, so it fires then too).
`resolveTokens` is the token-count dispatch of that method. -/
def resolveTokens (commands : List (List Char)) :
    Option (List Char) × Option (List Char) :=
  match commands with
  | [t, m] =>
    ((if isFiringKey t then some t else none),
     (if isMovementKey m then some m else none))
  | [c] =>
    if isMovementKey c then (none, some c) else (some c, none)
  | _ => (none, none)

/-- `Ship._handle_command_line` (see `resolveTokens` for the dispatch). -/
def Ship.handle_command_line (s : Ship) (command_line : List Char) :
    Option (List Char) × Option (List Char) × Ship :=
  let commands := (pySplitSp command_line []).filter (fun c => c ≠ [])
  let tm := resolveTokens commands
  let s := if tm.2 ≠ some DOWN then { s with z := s.z - 1 } else s
  (tm.1, tm.2, s)

/-- The hop chain of one firing-pattern offset: follow the compass words
from `temp_cubby = current_cubby`, breaking on a `None` cell or on the
`DOWN` word; `none` would be an `AttributeError` on an unknown word. -/
def hopLoop (cb : Cuboid) : Option (Nat × Nat) → List (List Char) →
    Option (Option (Nat × Nat))
  | cur, [] => some cur
  | cur, mv :: rest =>
    match cur with
    | none => some none
    | some p =>
      if mv = DOWN then some (some p)
      else do
        let nb ← cb.neighborAttr p mv
        hopLoop cb nb rest

/-- `if temp_cubby and temp_cubby.destroy_mine(): remove_mine_location`:
destroy the mine at the resolved cell when it is an unpassed mine, then
drop it from the registry. -/
def Ship.fireAt (s : Ship) (p : Nat × Nat) : Option Ship :=
  match s.cuboid.cellAt p with
  | none => none
  | some c =>
    if c.mine = true ∧ c.z ≠ MINE_PASSED_MARKER then do
      let cb := s.cuboid.mapCellById c.id Cubby.destroy_result
      let cb ← cb.remove_mine_location c.id
      pure { s with cuboid := cb }
    else
      pure s

/-- The pattern loop of `Ship._handle_torpedoe`. -/
def firePoints : Ship → List (Int × Int) → Option Ship
  | s, [] => some s
  | s, p :: ps => do
    let dirs ← movementDirsMap p
    let target ← hopLoop s.cuboid s.current dirs
    let s' ← match target with
             | some pos => s.fireAt pos
             | none => pure s
    firePoints s' ps

/-- `Ship._handle_torpedoe`: count the volley, look the pattern up
(`KeyError` = `none` on an unknown token), resolve and fire each offset. -/
def Ship.handle_torpedoe (s : Ship) (torpedoe : List Char) : Option Ship := do
  let s := { s with number_of_vollys_fired := s.number_of_vollys_fired + 1 }
  let pattern ← firingPatternMap torpedoe
  firePoints s pattern

/-- `Ship._handle_movement`: count non-`DOWN` moves, add the unit vector
to `(x, y)`, and re-point `current_cubby` at the neighbor attribute
(dereferencing a `None` current cell is an `AttributeError`, = `none`). -/
def Ship.handle_movement (s : Ship) (movement : List Char) : Option Ship := do
  let s := if movement ≠ DOWN
           then { s with number_of_moves_made := s.number_of_moves_made + 1 }
           else s
  let v ← movementVecMap movement
  let s := { s with x := s.x + v.1, y := s.y + v.2 }
  let cur ← s.current
  let nb ← s.cuboid.neighborAttr cur movement
  pure { s with current := nb }

/-- `Ship._execute_command`: parse, fire the torpedo if truthy, apply the
movement if truthy, then decay all registered mines, in that order. -/
def Ship.execute_command (s : Ship) (command : List Char) : Option Ship := do
  let (torpedoe, movement, s1) := s.handle_command_line command
  let s2 ← match torpedoe with
           | some t => if t = [] then pure s1 else s1.handle_torpedoe t
           | none => pure s1
  let s3 ← match movement with
           | some m => if m = [] then pure s2 else s2.handle_movement m
           | none => pure s2
  let cb ← s3.cuboid.update_depths
  pure { s3 with cuboid := cb }

/-- `Ship.check_score`: the four verdict cases in priority order;
`(none, -1)` is the still-running result. -/
def Ship.check_score (s : Ship) : Option (List Char) × Int :=
  if s.cuboid.mine_locations.any
      (fun m => match s.cuboid.getById m.2.2 with
                | some c => c.mine_passed
                | none => false) then
    (some FAIL, 0)
  else if s.number_of_commands_left = 0 ∧ s.cuboid.mine_locations ≠ [] then
    (some FAIL, 0)
  else if s.number_of_commands_left ≠ 0 ∧ s.cuboid.mine_locations = [] then
    (some PASS, 1)
  else if s.number_of_commands_left = 0 ∧ s.cuboid.mine_locations = [] then
    let volly_score : Int := (s.number_of_vollys_fired : Int) * 5
    let volly_max : Int := (s.number_of_initial_mines : Int) * 5
    let final_volly_score := if volly_score > volly_max then volly_max else volly_score
    let move_score : Int := (s.number_of_moves_made : Int) * 2
    let move_max : Int := (s.number_of_initial_mines : Int) * 3
    let final_move_score := if move_score > move_max then move_max else move_score
    (some PASS, s.starting_score - final_volly_score - final_move_score)
  else
    (none, -1)

/-- One iteration of `execute_command_scrip_file`'s loop: decrement the
remaining-command counter, then execute the command. -/
def Ship.turn (s : Ship) (command : List Char) : Option Ship :=
  Ship.execute_command
    { s with number_of_commands_left := s.number_of_commands_left - 1 } command

/-- Execute a list of commands as consecutive turns (no verdict check):
the states this reaches are the between-turn states of a run. -/
def Ship.applyTurns : Ship → List (List Char) → Option Ship
  | s, [] => some s
  | s, c :: cs => do
    let s' ← s.turn c
    Ship.applyTurns s' cs

/-- The loop of `execute_command_scrip_file`: after each turn evaluate
`check_score` and stop at the first verdict.  The inner `Option` is the
reported verdict: `none` when the loop exhausts the script without ever
reporting one. -/
def runLoop : Ship → List (List Char) → Option (Option (List Char × Int))
  | _, [] => some none
  | s, c :: cs => do
    let s' ← s.turn c
    match s'.check_score with
    | (some verdict, score) => some (some (verdict, score))
    | (none, _) => runLoop s' cs

/-- `Ship.execute_command_scrip_file`. -/
def Ship.execute_command_scrip_file (s : Ship) : Option (Option (List Char × Int)) :=
  runLoop s s.commands

/-- The whole program on parsed field and script lines: build the cuboid,
build the ship, run the script. -/
def runGame (field_lines script_lines : List (List Char)) :
    Option (Option (List Char × Int)) := do
  let cuboid ← Cuboid.init field_lines
  let ship ← Ship.init cuboid script_lines
  ship.execute_command_scrip_file

/-- The torpedo phase of `Ship._execute_command` (`if torpedoe: ...`),
with Python truthiness: `None` and the empty string are skipped. -/
def torpedoStage (torpedoe : Option (List Char)) (s : Ship) : Option Ship :=
  match torpedoe with
  | some t => if t = [] then pure s else s.handle_torpedoe t
  | none => pure s

/-- The movement phase of `Ship._execute_command` (`if movement: ...`). -/
def movementStage (movement : Option (List Char)) (s : Ship) : Option Ship :=
  match movement with
  | some m => if m = [] then pure s else s.handle_movement m
  | none => pure s

/-- The unconditional decay phase of `Ship._execute_command`
(`self.cuboid.update_depths()`). -/
def decayStage (s : Ship) : Option Ship :=
  (s.cuboid.update_depths).bind (fun cb => some { s with cuboid := cb })

/-- The structural invariant the cuboid maintains between turns: distinct
cell ids, distinct registry ids, every registry entry dereferences to a
mine cell at its recorded coordinates, destroyed or empty cells are never
`passed`, and a `passed` cell shows the sentinel with a depth counter
frozen on the sentinel index. -/
def CubInv (cb : Cuboid) : Prop :=
  (cb.cells.map Cubby.id).Nodup ∧
  (cb.mine_locations.map (fun e => e.2.2)).Nodup ∧
  (∀ e ∈ cb.mine_locations,
    ∃ c, cb.getById e.2.2 = some c ∧ c.mine = true ∧ c.x = e.1 ∧ c.y = e.2.1) ∧
  (∀ c ∈ cb.cells, c.mine = false → c.mine_passed = false) ∧
  (∀ c ∈ cb.cells, c.mine_passed = true →
    c.z = MINE_PASSED_MARKER ∧
    ∃ d, c.depth = some d ∧ pyIdx MINE_MARKERS (-d - 2) = some MINE_PASSED_MARKER)

/-- The one-cell field `"a"` (scenario fixtures). -/
def cuboidA : Option Cuboid := Cuboid.init [['a']]

/-- The ship constructed on the `"a"` field with an empty script. -/
def shipA : Option Ship := cuboidA.bind (fun cb => Ship.init cb [])

/-- The two-cell field `"ab"`. -/
def cuboidAB : Option Cuboid := Cuboid.init [['a', 'b']]

/-- `cuboidAB` unwrapped (its construction succeeds). -/
def cbAB : Cuboid :=
  (Cuboid.init [['a', 'b']]).getD { matrix := [], mine_locations := [], dimensions := (0, 0, 0) }

/-- An all-water field four columns wide and three rows tall. -/
def cuboid43 : Option Cuboid :=
  Cuboid.init [['.', '.', '.', '.'], ['.', '.', '.', '.'], ['.', '.', '.', '.']]

/-- A mine cell whose rank already reached the sentinel. -/
def passedCell : Cubby :=
  { x := 0, y := 0, z := '*', id := 0, depth := some (-2), mine := true, mine_passed := true }

/-- A one-cell cuboid holding `passedCell`, still registered. -/
def cbPassed : Cuboid :=
  { matrix := [[passedCell]], mine_locations := [(0, 0, 0)], dimensions := (1, 1, 0) }

/-- A ship state over `cbPassed` with commands remaining. -/
def shipPassed : Ship :=
  { cuboid := cbPassed, commands := [], x := 0, y := 0, z := 0, current := some (0, 0),
    number_of_moves_made := 0, number_of_vollys_fired := 0,
    number_of_initial_mines := 1, number_of_commands_left := 5, starting_score := 10 }

/-- An empty one-cell cuboid (no mines). -/
def cbCleared : Cuboid :=
  { matrix := [[Cubby.init 0 0 '.' 0]], mine_locations := [], dimensions := (1, 1, 0) }

/-- A terminal ship state: mines all cleared, script exhausted, one
initial mine, one volley fired, one move made. -/
def shipCleared : Ship :=
  { cuboid := cbCleared, commands := [], x := 0, y := 0, z := -1, current := some (0, 0),
    number_of_moves_made := 1, number_of_vollys_fired := 1,
    number_of_initial_mines := 1, number_of_commands_left := 0, starting_score := 10 }

/-- `cuboidA` unwrapped (its construction succeeds). -/
def cbA : Cuboid :=
  (Cuboid.init [['a']]).getD { matrix := [], mine_locations := [], dimensions := (0, 0, 0) }

/-- `cbA` after one decay step (the single rank-1 mine passes). -/
def cbADec : Cuboid :=
  (cbA.update_depths).getD { matrix := [], mine_locations := [], dimensions := (0, 0, 0) }

/-- The cell of `cbA`: a rank-1 mine at the origin. -/
def cellA : Cubby :=
  { x := 0, y := 0, z := 'a', id := 0, depth := some (-2), mine := true, mine_passed := false }

/-- The two-cell field `"bc"` and its decay (no mine passes). -/
def cbBC : Cuboid :=
  (Cuboid.init [['b', 'c']]).getD { matrix := [], mine_locations := [], dimensions := (0, 0, 0) }

/-- `cbBC` after one decay step. -/
def cbBCDec : Cuboid :=
  (cbBC.update_depths).getD { matrix := [], mine_locations := [], dimensions := (0, 0, 0) }

/-- `shipA` unwrapped (its construction succeeds). -/
def shipA0 : Ship := shipA.getD shipPassed

/-- `shipA0` after executing the movement-only line `"north"`. -/
def shipA0N : Ship := (shipA0.execute_command NORTH).getD shipPassed

/-- `shipA0` with the script `["gamma"]` loaded, and after that one turn. -/
def shipG : Ship :=
  ((Cuboid.init [['a']]).bind (fun cb => Ship.init cb [GAMMA])).getD shipPassed

/-- `shipG` after its one turn (the mine is destroyed). -/
def shipG1 : Ship := (shipG.applyTurns [GAMMA]).getD shipPassed

/-- C1: if any entry of the active-mine registry refers to a cell with
`passed = true`, `check_score` returns FAIL with score 0, with no
hypothesis on the remaining commands, the other registry entries, or any
counter — the passed check is the first case and overrides every other
verdict condition. -/
theorem C1_passed_mine_forces_fail (s : Ship) (e : Int × Int × Nat) (c : Cubby)
    (he : e ∈ s.cuboid.mine_locations) (hc : s.cuboid.getById e.2.2 = some c)
    (hp : c.mine_passed = true) :
    s.check_score = (some FAIL, 0) := by
  have hany : s.cuboid.mine_locations.any
      (fun m => match s.cuboid.getById m.2.2 with
                | some c => c.mine_passed
                | none => false) = true := by
    rw [List.any_eq_true]
    refine ⟨e, he, ?_⟩
    simp only [hc]
    exact hp
  unfold Ship.check_score
  rw [if_pos hany]

/-- C1 witness: a state whose registry holds a passed mine evaluates to
FAIL, 0 even though commands remain. -/
theorem C1_witness : shipPassed.check_score = (some FAIL, 0) :=
  C1_passed_mine_forces_fail shipPassed (0, 0, 0) passedCell (by decide) (by decide)
    (by decide)

/-- C4: in the no-commands-no-mines case the score is
`10*m - min(volleys*5, m*5) - min(moves*2, m*3)`, and for every value of
the volley and move counters this is at least `2*m` and non-negative. -/
theorem C4_exhaustive_clear_formula (s : Ship)
    (hml : s.cuboid.mine_locations = [])
    (hleft : s.number_of_commands_left = 0)
    (hss : s.starting_score = 10 * (s.number_of_initial_mines : Int)) :
    s.check_score =
      (some PASS,
        10 * (s.number_of_initial_mines : Int)
          - min ((s.number_of_vollys_fired : Int) * 5) ((s.number_of_initial_mines : Int) * 5)
          - min ((s.number_of_moves_made : Int) * 2) ((s.number_of_initial_mines : Int) * 3))
    ∧ 2 * (s.number_of_initial_mines : Int) ≤ (s.check_score).2
    ∧ 0 ≤ (s.check_score).2 := by
  have hmin : ∀ a b : Int, (if a > b then b else a) = min a b := by
    intro a b
    rcases le_or_lt a b with h | h
    · rw [if_neg (by omega), min_eq_left h]
    · rw [if_pos h, min_eq_right (le_of_lt h)]
  have hscore : s.check_score =
      (some PASS,
        10 * (s.number_of_initial_mines : Int)
          - min ((s.number_of_vollys_fired : Int) * 5) ((s.number_of_initial_mines : Int) * 5)
          - min ((s.number_of_moves_made : Int) * 2) ((s.number_of_initial_mines : Int) * 3)) := by
    unfold Ship.check_score
    rw [hml, hleft, hss]
    simp only [List.any_nil, Bool.false_eq_true, if_false, ne_eq, not_true_eq_false,
      and_false, if_false, not_false_eq_true, and_true, false_and, if_false, and_self, if_true,
      hmin]
  refine ⟨hscore, ?_, ?_⟩
  · rw [hscore]
    have h1 : min ((s.number_of_vollys_fired : Int) * 5)
        ((s.number_of_initial_mines : Int) * 5) ≤ (s.number_of_initial_mines : Int) * 5 :=
      min_le_right _ _
    have h2 : min ((s.number_of_moves_made : Int) * 2)
        ((s.number_of_initial_mines : Int) * 3) ≤ (s.number_of_initial_mines : Int) * 3 :=
      min_le_right _ _
    simp only
    omega
  · rw [hscore]
    have h1 : min ((s.number_of_vollys_fired : Int) * 5)
        ((s.number_of_initial_mines : Int) * 5) ≤ (s.number_of_initial_mines : Int) * 5 :=
      min_le_right _ _
    have h2 : min ((s.number_of_moves_made : Int) * 2)
        ((s.number_of_initial_mines : Int) * 3) ≤ (s.number_of_initial_mines : Int) * 3 :=
      min_le_right _ _
    have h3 : (0 : Int) ≤ (s.number_of_initial_mines : Int) := Int.ofNat_nonneg _
    simp only
    omega

/-- C4 witness: the cleared terminal state with one initial mine, one
volley and one move scores `pass 3 = 10 - 5 - 2`, which is at least 2. -/
theorem C4_witness :
    shipCleared.check_score =
      (some PASS, 10 * ((1 : Nat) : Int) - min (((1 : Nat) : Int) * 5) (((1 : Nat) : Int) * 5)
        - min (((1 : Nat) : Int) * 2) (((1 : Nat) : Int) * 3))
    ∧ 2 * ((1 : Nat) : Int) ≤ (shipCleared.check_score).2
    ∧ 0 ≤ (shipCleared.check_score).2 :=
  C4_exhaustive_clear_formula shipCleared (by decide) (by decide) (by decide)

/-- C5: contrary to the claim, a single token matching neither vocabulary
is NOT dropped: the one-token branch keeps it as the torpedo result
without validating it, and executing the turn then crashes on the
`FIRING_PATTERN_MAP` lookup (`KeyError`, modelled as `none`) instead of
proceeding as a no-op. -/
theorem C5_unknown_single_token_crashes :
    (shipA.map (fun sh => (sh.handle_command_line ['f', 'o', 'o']).1))
      = some (some ['f', 'o', 'o'])
    ∧ (shipA.map (fun sh => (sh.handle_command_line ['f', 'o', 'o']).2.1)) = some none
    ∧ (shipA.bind (fun sh => sh.execute_command ['f', 'o', 'o'])) = none
    ∧ runGame [['a']] [['f', 'o', 'o']] = none := by
  refine ⟨by decide, by decide, by decide, by decide⟩

/-- C6: on a four-wide, three-tall field the ship is constructed at
`(x, y) = (⌊H/2⌋, ⌊W/2⌋) = (1, 2)` — the claim's `(⌊W/2⌋, ⌊H/2⌋)` would
be `(2, 1)` — because `Ship.__init__` reads `dimensions[0]` (the row
count) for `x` and `dimensions[1]` (the column count) for `y`; the
occupied cell is `matrix[2][1]`, whose coordinates are `(1, 2)`.  On a
three-wide, one-tall field the same swap indexes `matrix[1]` out of range
and construction crashes. -/
theorem C6_ship_center_swapped :
    ((cuboid43.bind (fun cb => Ship.init cb [])).map (fun sh => (sh.x, sh.y, sh.current)))
      = some (1, 2, some (2, 1))
    ∧ ((cuboid43.bind (fun cb => cb.cellAt (2, 1))).map (fun c => (c.x, c.y)))
      = some (1, 2)
    ∧ ((1 : Int), (2 : Int)) ≠ ((4 : Int) / 2, (3 : Int) / 2)
    ∧ ((Cuboid.init [['.', '.', '.']]).bind (fun cb => Ship.init cb [])) = none := by
  refine ⟨by decide, by decide, by decide, by decide⟩

/-- C8 counterexample: on field `"a"` with an empty script the driver
loop never runs, so the run terminates reporting no verdict at all — not
the claimed FAIL, 0. -/
theorem C8_counterexample_no_verdict_reported :
    runGame [['a']] [] = some none
    ∧ runGame [['a']] [] ≠ some (some (FAIL, 0)) := by
  refine ⟨by decide, by decide⟩

/-- C8 amended: the empty-script run on field `"a"` terminates without
reporting any verdict; the scorer evaluated on the terminal (initial)
state would return FAIL, 0. -/
theorem C8_amended_terminal_state_scores_fail :
    (shipA.bind Ship.execute_command_scrip_file) = some none
    ∧ (shipA.map Ship.check_score) = some (some FAIL, 0) := by
  refine ⟨by decide, by decide⟩

/-- C9 counterexample: the torpedo-only line `"alpha"` resolves to no
movement, yet parsing still decrements `z` from 0 to −1 — the claim says
such a line leaves `z` unchanged. -/
theorem C9_counterexample_torpedo_line_decrements_z :
    (shipA.map (fun sh =>
        ((sh.handle_command_line ALPHA).2.1, ((sh.handle_command_line ALPHA).2.2).z, sh.z)))
      = some (none, -1, 0)
    ∧ (-1 : Int) ≠ 0 := by
  refine ⟨by decide, by decide⟩

/-- C9 amended: parsing decrements `z` by exactly one on EVERY command
line, whatever it resolves to: the guard compares the movement result
with the empty-string descend token, and the tokenizer can never produce
that token (tokens are non-empty, and the vocabularies contain no empty
word), so the guard always fires — for movement lines, torpedo-only
lines, unrecognized lines and blank lines alike. -/
theorem C9_amended_parse_always_decrements_z (s : Ship) (line : List Char) :
    ((s.handle_command_line line).2.2).z = s.z - 1
    ∧ (s.handle_command_line line).2.1 ≠ some DOWN := by
  have key : ∀ w : List Char, isMovementKey w = true → w ≠ [] := by
    intro w hw hnil
    subst hnil
    exact absurd hw (by decide)
  have hmv : ∀ commands : List (List Char), (∀ t ∈ commands, t ≠ []) →
      (resolveTokens commands).2 ≠ some DOWN := by
    intro commands hall
    match commands with
    | [] => simp [resolveTokens, DOWN]
    | [a] =>
      by_cases ha : isMovementKey a = true
      · have hne : a ≠ [] := key a ha
        simp [resolveTokens, ha, DOWN, hne]
      · simp [resolveTokens, ha, DOWN]
    | [a, b] =>
      by_cases hb : isMovementKey b = true
      · have hne : b ≠ [] := key b hb
        simp [resolveTokens, hb, DOWN, hne]
      · simp [resolveTokens, hb, DOWN]
    | a :: b :: c :: rest => simp [resolveTokens, DOWN]
  have hall : ∀ t ∈ (pySplitSp line []).filter (fun c => c ≠ []), t ≠ [] := by
    intro t ht
    simpa using (List.mem_filter.mp ht).2
  have hne := hmv _ hall
  simp only [Ship.handle_command_line]
  rw [if_pos hne]
  exact ⟨rfl, hne⟩

/-- The removal scan returns `none` exactly when no entry matches. -/
theorem findMineIndex_eq_none (i : Nat) (ml : List (Int × Int × Nat))
    (h : ∀ e ∈ ml, e.2.2 ≠ i) : findMineIndex i ml = none := by
  induction ml with
  | nil => rfl
  | cons e es ih =>
    unfold findMineIndex
    rw [if_neg (h e (List.mem_cons_self e es))]
    rw [ih (fun a ha => h a (List.mem_cons_of_mem e ha))]
    rfl

/-- The removal scan finds the first matching entry's index. -/
theorem findMineIndex_append (i : Nat) (pre post : List (Int × Int × Nat))
    (e : Int × Int × Nat) (hpre : ∀ a ∈ pre, a.2.2 ≠ i) (he : e.2.2 = i) :
    findMineIndex i (pre ++ e :: post) = some pre.length := by
  induction pre with
  | nil => simp [findMineIndex, he]
  | cons a t ih =>
    simp only [List.cons_append]
    unfold findMineIndex
    rw [if_neg (hpre a (List.mem_cons_self a t))]
    rw [ih (fun b hb => hpre b (List.mem_cons_of_mem a hb))]
    rfl

/-- Erasing at the index right after a prefix removes the split element. -/
theorem eraseIdx_append_length {α : Type} (pre post : List α) (e : α) :
    (pre ++ e :: post).eraseIdx pre.length = pre ++ post := by
  induction pre with
  | nil => rfl
  | cons a t ih =>
    simp only [List.cons_append, List.length_cons, List.eraseIdx_cons_succ, ih]

/-- C7 counterexample: removing an id that is in no registry entry is not
a no-op — on the field `"ab"` (entries with ids 0 and 1), removing the
absent id 99 pops the first entry off the registry. -/
theorem C7_counterexample_missing_id_pops_head :
    (cuboidAB.map (fun cb => cb.mine_locations)) = some [(0, 0, 0), (1, 0, 1)]
    ∧ ((cuboidAB.bind (fun cb => cb.remove_mine_location 99)).map
        (fun cb => cb.mine_locations)) = some [(1, 0, 1)] :=
  ⟨by decide, by decide⟩

/-- C7 amended: when the id matches no entry, `remove_mine_location` pops
the FIRST registry entry (the scan's index stays 0) — an `IndexError`
(= `none`) on an empty registry — and when an entry matches, exactly the
first matching entry is removed. -/
theorem C7_amended_remove_mine_location_cases (cb : Cuboid) (i : Nat) :
    ((∀ e ∈ cb.mine_locations, e.2.2 ≠ i) → cb.mine_locations ≠ [] →
      cb.remove_mine_location i
        = some { cb with mine_locations := cb.mine_locations.tail })
    ∧ ((∀ e ∈ cb.mine_locations, e.2.2 ≠ i) → cb.mine_locations = [] →
      cb.remove_mine_location i = none)
    ∧ (∀ pre e post, cb.mine_locations = pre ++ e :: post → e.2.2 = i →
        (∀ a ∈ pre, a.2.2 ≠ i) →
      cb.remove_mine_location i
        = some { cb with mine_locations := pre ++ post }) := by
  refine ⟨?_, ?_, ?_⟩
  · intro habs hne
    obtain ⟨h, t, hml⟩ := List.exists_cons_of_ne_nil hne
    unfold Cuboid.remove_mine_location
    rw [findMineIndex_eq_none i _ habs, hml]
    simp [pyPop]
  · intro habs hml
    unfold Cuboid.remove_mine_location
    rw [findMineIndex_eq_none i _ habs, hml]
    simp [pyPop]
  · intro pre e post hml he hpre
    unfold Cuboid.remove_mine_location
    rw [hml, findMineIndex_append i pre post e hpre he]
    have hlen : pre.length < (pre ++ e :: post).length := by
      simp [List.length_append]
    simp only [Option.getD_some, pyPop, if_pos hlen, eraseIdx_append_length]
    rfl

/-- C7 witness: on the concrete field `"ab"`, removing the absent id 99
pops the head entry as the amended claim states. -/
theorem C7_witness :
    cbAB.remove_mine_location 99
      = some { cbAB with mine_locations := cbAB.mine_locations.tail } :=
  (C7_amended_remove_mine_location_cases cbAB 99).1 (by decide) (by decide)

theorem updCell_append (f : Cubby → Option Cubby) (l1 l2 r1 r2 : List Cubby)
    (h1 : updCell f l1 = some r1) (h2 : updCell f l2 = some r2) :
    updCell f (l1 ++ l2) = some (r1 ++ r2) := by
  induction l1 generalizing r1 with
  | nil =>
    simp only [updCell] at h1
    cases h1
    simpa using h2
  | cons c cs ih =>
    simp only [updCell, Option.bind_eq_bind, Option.bind_eq_some] at h1
    obtain ⟨c', hc', r1', hr1', heq⟩ := h1
    cases heq
    simp only [List.cons_append, updCell, Option.bind_eq_bind, Option.bind_eq_some]
    exact ⟨c', hc', r1' ++ r2, ih r1' hr1', rfl⟩

theorem updCell_success_mem (f : Cubby → Option Cubby) (l l' : List Cubby)
    (h : updCell f l = some l') : ∀ c ∈ l, ∃ c', f c = some c' := by
  induction l generalizing l' with
  | nil => intro c hc; cases hc
  | cons a t ih =>
    simp only [updCell, Option.bind_eq_bind, Option.bind_eq_some] at h
    obtain ⟨a', ha', t', ht', heq⟩ := h
    intro c hc
    rcases List.mem_cons.mp hc with rfl | hc
    · exact ⟨a', ha'⟩
    · exact ih t' ht' c hc

theorem updCell_mem_src (f : Cubby → Option Cubby) (l l' : List Cubby)
    (h : updCell f l = some l') : ∀ c' ∈ l', ∃ c ∈ l, f c = some c' := by
  induction l generalizing l' with
  | nil =>
    simp only [updCell] at h
    cases h
    intro c hc; cases hc
  | cons a t ih =>
    simp only [updCell, Option.bind_eq_bind, Option.bind_eq_some] at h
    obtain ⟨a', ha', t', ht', heq⟩ := h
    cases heq
    intro c' hc'
    rcases List.mem_cons.mp hc' with rfl | hc'
    · exact ⟨a, List.mem_cons_self a t, ha'⟩
    · obtain ⟨c, hc, hfc⟩ := ih t' ht' c' hc'
      exact ⟨c, List.mem_cons_of_mem a hc, hfc⟩

theorem updCell_map_proj {β : Type} (f : Cubby → Option Cubby) (proj : Cubby → β)
    (hproj : ∀ c c', f c = some c' → proj c' = proj c) (l l' : List Cubby)
    (h : updCell f l = some l') : l'.map proj = l.map proj := by
  induction l generalizing l' with
  | nil => simp only [updCell] at h; cases h; rfl
  | cons a t ih =>
    simp only [updCell, Option.bind_eq_bind, Option.bind_eq_some] at h
    obtain ⟨a', ha', t', ht', heq⟩ := h
    cases heq
    simp only [List.map_cons, hproj a a' ha', ih t' ht']

theorem updCell_find_id (f : Cubby → Option Cubby)
    (hid : ∀ c c', f c = some c' → c'.id = c.id) (l l' : List Cubby)
    (h : updCell f l = some l') (j : Nat) :
    l'.find? (fun c => c.id = j) = (l.find? (fun c => c.id = j)).bind f := by
  induction l generalizing l' with
  | nil => simp only [updCell] at h; cases h; rfl
  | cons a t ih =>
    simp only [updCell, Option.bind_eq_bind, Option.bind_eq_some] at h
    obtain ⟨a', ha', t', ht', heq⟩ := h
    cases heq
    by_cases hj : a.id = j
    · have hj' : a'.id = j := by rw [hid a a' ha', hj]
      rw [List.find?_cons_of_pos _ (by simpa using hj'),
        List.find?_cons_of_pos _ (by simpa using hj)]
      simpa using ha'.symm
    · have hj' : ¬a'.id = j := by rw [hid a a' ha']; exact hj
      rw [List.find?_cons_of_neg _ (by simpa using hj'),
        List.find?_cons_of_neg _ (by simpa using hj)]
      exact ih t' ht'

theorem updMatrix_flatten (f : Cubby → Option Cubby) (m m' : List (List Cubby))
    (h : updMatrix f m = some m') : updCell f m.flatten = some m'.flatten := by
  induction m generalizing m' with
  | nil => simp only [updMatrix] at h; cases h; rfl
  | cons r rs ih =>
    simp only [updMatrix, Option.bind_eq_bind, Option.bind_eq_some] at h
    obtain ⟨r', hr', rs', hrs', heq⟩ := h
    cases heq
    simp only [List.flatten_cons]
    exact updCell_append f r rs.flatten r' rs'.flatten hr' (ih rs' hrs')

theorem find?_map_id_pres (g : Cubby → Cubby) (hid : ∀ c, (g c).id = c.id)
    (l : List Cubby) (j : Nat) :
    (l.map g).find? (fun c => c.id = j) = (l.find? (fun c => c.id = j)).map g := by
  induction l with
  | nil => rfl
  | cons a t ih =>
    by_cases hj : a.id = j
    · rw [List.map_cons, List.find?_cons_of_pos _ (by simpa using (hid a).trans hj),
        List.find?_cons_of_pos _ (by simpa using hj)]
      rfl
    · rw [List.map_cons, List.find?_cons_of_neg _ (by simp [hid a, hj]),
        List.find?_cons_of_neg _ (by simpa using hj)]
      exact ih

/-- In a list with pairwise-distinct ids, `find?` on a member's id finds
that member. -/
theorem find?_of_nodup_mem (l : List Cubby) (hnd : (l.map Cubby.id).Nodup)
    (c : Cubby) (hc : c ∈ l) : l.find? (fun d => d.id = c.id) = some c := by
  induction l with
  | nil => cases hc
  | cons a t ih =>
    rcases List.mem_cons.mp hc with rfl | hc
    · rw [List.find?_cons_of_pos _ (by simp)]
    · have ha : a.id ≠ c.id := by
        intro heq
        have : a.id ∈ t.map Cubby.id := heq ▸ List.mem_map_of_mem Cubby.id hc
        exact (List.nodup_cons.mp (by simpa using hnd)).1 this
      rw [List.find?_cons_of_neg _ (by simpa using ha)]
      exact ih (List.nodup_cons.mp (by simpa using hnd)).2 hc

/-- `update_depth` takes exactly one of two branches: reach the sentinel
and set `mine_passed` leaving `depth` frozen, or adopt the next symbol
and advance `depth`. -/
theorem update_depth_branches (c c' : Cubby) (h : c.update_depth = some c') :
    ∃ d ch, c.depth = some d ∧ pyIdx MINE_MARKERS (-d - 2) = some ch ∧
      ((ch = MINE_PASSED_MARKER ∧ c' = { c with z := ch, mine_passed := true })
       ∨ (ch ≠ MINE_PASSED_MARKER ∧ c' = { c with z := ch, depth := some (d + 1) })) := by
  unfold Cubby.update_depth at h
  cases hd : c.depth with
  | none => rw [hd] at h; cases h
  | some d =>
    rw [hd] at h
    simp only [Option.bind_eq_bind, Option.some_bind] at h
    cases hch : pyIdx MINE_MARKERS (-d - 2) with
    | none => rw [hch] at h; cases h
    | some ch =>
      rw [hch] at h
      simp only [Option.some_bind] at h
      by_cases hstar : ch = MINE_PASSED_MARKER
      · rw [if_pos hstar] at h
        cases h
        exact ⟨d, ch, rfl, hch, Or.inl ⟨hstar, rfl⟩⟩
      · rw [if_neg hstar] at h
        cases h
        exact ⟨d, ch, rfl, hch, Or.inr ⟨hstar, rfl⟩⟩

/-- `update_depth` never changes a cell's identity, coordinates or mine
flag. -/
theorem update_depth_fields (c c' : Cubby) (h : c.update_depth = some c') :
    c'.id = c.id ∧ c'.x = c.x ∧ c'.y = c.y ∧ c'.mine = c.mine := by
  obtain ⟨d, ch, _, _, hbr | hbr⟩ := update_depth_branches c c' h <;>
    (rw [hbr.2]; exact ⟨rfl, rfl, rfl, rfl⟩)

/-- The guarded per-id decay mutation also preserves those fields. -/
theorem decayGuard_fields (i : Nat) (c c' : Cubby)
    (h : (if c.id = i then c.update_depth else some c) = some c') :
    c'.id = c.id ∧ c'.x = c.x ∧ c'.y = c.y ∧ c'.mine = c.mine := by
  by_cases hc : c.id = i
  · rw [if_pos hc] at h
    exact update_depth_fields c c' h
  · rw [if_neg hc] at h
    cases h
    exact ⟨rfl, rfl, rfl, rfl⟩

/-- Unfolding `updateDepthById`: the registry and dimensions are kept and
the cell list evolves by the guarded per-id mutation. -/
theorem updateDepthById_spec (cb cb1 : Cuboid) (i : Nat)
    (h : cb.updateDepthById i = some cb1) :
    cb1.mine_locations = cb.mine_locations ∧
    cb1.dimensions = cb.dimensions ∧
    updCell (fun c => if c.id = i then c.update_depth else some c) cb.cells
      = some cb1.cells := by
  unfold Cuboid.updateDepthById at h
  rcases Option.map_eq_some'.mp h with ⟨m', hm', heq⟩
  subst heq
  exact ⟨rfl, rfl, updMatrix_flatten _ cb.matrix m' hm'⟩

/-- Per-id decay, observed through `getById`. -/
theorem updateDepthById_getById (cb cb1 : Cuboid) (i : Nat)
    (h : cb.updateDepthById i = some cb1) (j : Nat) :
    cb1.getById j = (cb.getById j).bind
      (fun c => if c.id = i then c.update_depth else some c) := by
  obtain ⟨_, _, hcells⟩ := updateDepthById_spec cb cb1 i h
  exact updCell_find_id _ (fun c c' hfc => (decayGuard_fields i c c' hfc).1)
    cb.cells cb1.cells hcells j

/-- Per-id decay leaves every other id's cell untouched. -/
theorem updateDepthById_getById_ne (cb cb1 : Cuboid) (i : Nat)
    (h : cb.updateDepthById i = some cb1) (j : Nat) (hij : j ≠ i) :
    cb1.getById j = cb.getById j := by
  rw [updateDepthById_getById cb cb1 i h j]
  cases hg : cb.getById j with
  | none => rfl
  | some c =>
    have hcj : c.id = j := by simpa using List.find?_some hg
    have hni : ¬c.id = i := by rw [hcj]; exact hij
    simp only [Option.some_bind, if_neg hni]

/-- Decay of a whole registry keeps the registry and the dimensions. -/
theorem updateDepthsLoop_frame (es : List (Int × Int × Nat)) (cb cb' : Cuboid)
    (h : updateDepthsLoop cb es = some cb') :
    cb'.mine_locations = cb.mine_locations ∧ cb'.dimensions = cb.dimensions := by
  induction es generalizing cb with
  | nil => simp only [updateDepthsLoop] at h; cases h; exact ⟨rfl, rfl⟩
  | cons e es ih =>
    simp only [updateDepthsLoop, Option.bind_eq_bind, Option.bind_eq_some] at h
    obtain ⟨cb1, hcb1, hloop⟩ := h
    obtain ⟨hml, hdim, _⟩ := updateDepthById_spec cb cb1 e.2.2 hcb1
    obtain ⟨hml', hdim'⟩ := ih cb1 hloop
    exact ⟨hml'.trans hml, hdim'.trans hdim⟩

/-- Decay of a registry leaves cells registered under none of its ids
untouched. -/
theorem updateDepthsLoop_getById_notmem (es : List (Int × Int × Nat))
    (cb cb' : Cuboid) (h : updateDepthsLoop cb es = some cb') (j : Nat)
    (hj : ∀ e ∈ es, e.2.2 ≠ j) : cb'.getById j = cb.getById j := by
  induction es generalizing cb with
  | nil => simp only [updateDepthsLoop] at h; cases h; rfl
  | cons e es ih =>
    simp only [updateDepthsLoop, Option.bind_eq_bind, Option.bind_eq_some] at h
    obtain ⟨cb1, hcb1, hloop⟩ := h
    rw [ih cb1 hloop (fun a ha => hj a (List.mem_cons_of_mem e ha))]
    exact updateDepthById_getById_ne cb cb1 e.2.2 hcb1 j
      (fun heq => hj e (List.mem_cons_self e es) heq.symm)

/-- Decay of a registry with pairwise-distinct ids applies `update_depth`
exactly once to each registered cell. -/
theorem updateDepthsLoop_getById_target (es : List (Int × Int × Nat))
    (cb cb' : Cuboid) (h : updateDepthsLoop cb es = some cb')
    (e : Int × Int × Nat) (he : e ∈ es)
    (hnd : (es.map (fun x => x.2.2)).Nodup) :
    cb'.getById e.2.2 = (cb.getById e.2.2).bind Cubby.update_depth := by
  induction es generalizing cb with
  | nil => cases he
  | cons e0 es ih =>
    simp only [updateDepthsLoop, Option.bind_eq_bind, Option.bind_eq_some] at h
    obtain ⟨cb1, hcb1, hloop⟩ := h
    rw [List.map_cons] at hnd
    have hnd2 := List.nodup_cons.mp hnd
    rcases List.mem_cons.mp he with rfl | he'
    · have hrest : ∀ a ∈ es, a.2.2 ≠ e.2.2 := by
        intro a ha heq
        exact hnd2.1 (heq ▸ List.mem_map_of_mem (fun x => x.2.2) ha)
      rw [updateDepthsLoop_getById_notmem es cb1 cb' hloop e.2.2 hrest]
      rw [updateDepthById_getById cb cb1 e.2.2 hcb1 e.2.2]
      cases hg : cb.getById e.2.2 with
      | none => rfl
      | some c =>
        have hcj : c.id = e.2.2 := by simpa using List.find?_some hg
        simp only [Option.some_bind, if_pos hcj]
    · have hne : e.2.2 ≠ e0.2.2 := by
        intro heq
        exact hnd2.1 (heq ▸ List.mem_map_of_mem (fun x => x.2.2) he')
      rw [ih cb1 hloop he' hnd2.2,
        updateDepthById_getById_ne cb cb1 e0.2.2 hcb1 e.2.2 hne]

/-- One per-id decay step over a registered id preserves the cuboid
invariant and the registry. -/
theorem updateDepthById_inv (cb cb1 : Cuboid) (e : Int × Int × Nat)
    (hInv : CubInv cb) (he : e ∈ cb.mine_locations)
    (h : cb.updateDepthById e.2.2 = some cb1) :
    CubInv cb1 ∧ cb1.mine_locations = cb.mine_locations := by
  obtain ⟨hml, hdim, hcells⟩ := updateDepthById_spec cb cb1 e.2.2 h
  unfold CubInv at hInv
  obtain ⟨h1, h2, h3, h4, h5⟩ := hInv
  have hmine_true : ∀ c ∈ cb.cells, c.id = e.2.2 → c.mine = true := by
    intro c hc hci
    obtain ⟨c0, hg0, hm0, _, _⟩ := h3 e he
    have hcfind : cb.getById c.id = some c := find?_of_nodup_mem cb.cells h1 c hc
    rw [hci, hg0] at hcfind
    rw [← Option.some.inj hcfind]
    exact hm0
  refine ⟨⟨?_, ?_, ?_, ?_, ?_⟩, hml⟩
  · have hmap := updCell_map_proj _ Cubby.id
      (fun c c' hfc => (decayGuard_fields e.2.2 c c' hfc).1) cb.cells cb1.cells hcells
    rw [hmap]
    exact h1
  · rw [hml]
    exact h2
  · intro e' he'
    rw [hml] at he'
    obtain ⟨c, hgc, hcm, hcx, hcy⟩ := h3 e' he'
    by_cases hci : c.id = e.2.2
    · have hcmem : c ∈ cb.cells := List.mem_of_find?_eq_some hgc
      obtain ⟨c2, hc2⟩ := updCell_success_mem _ cb.cells cb1.cells hcells c hcmem
      rw [if_pos hci] at hc2
      obtain ⟨hid2, hx2, hy2, hm2⟩ := update_depth_fields c c2 hc2
      refine ⟨c2, ?_, by rw [hm2]; exact hcm, by rw [hx2]; exact hcx,
        by rw [hy2]; exact hcy⟩
      rw [updateDepthById_getById cb cb1 e.2.2 h e'.2.2, hgc]
      simp only [Option.some_bind, if_pos hci]
      exact hc2
    · refine ⟨c, ?_, hcm, hcx, hcy⟩
      rw [updateDepthById_getById cb cb1 e.2.2 h e'.2.2, hgc]
      simp only [Option.some_bind, if_neg hci]
  · intro c1 hc1 hmf
    obtain ⟨c, hc, hfc⟩ := updCell_mem_src _ cb.cells cb1.cells hcells c1 hc1
    by_cases hci : c.id = e.2.2
    · rw [if_pos hci] at hfc
      have hcm : c.mine = true := hmine_true c hc hci
      obtain ⟨d, ch, hd, hch, hbr | hbr⟩ := update_depth_branches c c1 hfc <;>
        (rw [hbr.2] at hmf; simp only at hmf; rw [hcm] at hmf; cases hmf)
    · rw [if_neg hci] at hfc
      cases hfc
      exact h4 c1 hc hmf
  · intro c1 hc1 hp1
    obtain ⟨c, hc, hfc⟩ := updCell_mem_src _ cb.cells cb1.cells hcells c1 hc1
    by_cases hci : c.id = e.2.2
    · rw [if_pos hci] at hfc
      obtain ⟨d, ch, hd, hch, hbr | hbr⟩ := update_depth_branches c c1 hfc
      · rw [hbr.2]
        refine ⟨hbr.1, d, hd, ?_⟩
        rw [← hbr.1]
        exact hch
      · rw [hbr.2] at hp1
        simp only at hp1
        obtain ⟨_, d0, hd0, hstar0⟩ := h5 c hc hp1
        rw [hd] at hd0
        rw [← Option.some.inj hd0] at hstar0
        rw [hch] at hstar0
        exact absurd (Option.some.inj hstar0) hbr.1
    · rw [if_neg hci] at hfc
      cases hfc
      exact h5 c1 hc hp1

/-- Decay of a sub-registry preserves the cuboid invariant and the
registry. -/
theorem updateDepthsLoop_inv (es : List (Int × Int × Nat)) (cb cb' : Cuboid)
    (hsub : ∀ e ∈ es, e ∈ cb.mine_locations) (hInv : CubInv cb)
    (h : updateDepthsLoop cb es = some cb') :
    CubInv cb' ∧ cb'.mine_locations = cb.mine_locations := by
  induction es generalizing cb with
  | nil =>
    simp only [updateDepthsLoop] at h
    cases h
    exact ⟨hInv, rfl⟩
  | cons e es ih =>
    simp only [updateDepthsLoop, Option.bind_eq_bind, Option.bind_eq_some] at h
    obtain ⟨cb1, hcb1, hloop⟩ := h
    obtain ⟨hInv1, hml1⟩ :=
      updateDepthById_inv cb cb1 e hInv (hsub e (List.mem_cons_self e es)) hcb1
    obtain ⟨hInv', hml'⟩ := ih cb1
      (fun a ha => hml1 ▸ hsub a (List.mem_cons_of_mem e ha)) hInv1 hloop
    exact ⟨hInv', hml'.trans hml1⟩

/-- `update_depths` preserves the cuboid invariant and the registry. -/
theorem update_depths_inv (cb cb' : Cuboid) (hInv : CubInv cb)
    (h : cb.update_depths = some cb') :
    CubInv cb' ∧ cb'.mine_locations = cb.mine_locations :=
  updateDepthsLoop_inv cb.mine_locations cb cb' (fun _ ha => ha) hInv h

/-- The removal scan succeeds whenever some entry matches. -/
theorem findMineIndex_isSome_of_mem (i : Nat) (ml : List (Int × Int × Nat))
    (e : Int × Int × Nat) (he : e ∈ ml) (hei : e.2.2 = i) :
    (findMineIndex i ml).isSome = true := by
  induction ml with
  | nil => cases he
  | cons a t ih =>
    unfold findMineIndex
    by_cases ha : a.2.2 = i
    · rw [if_pos ha]; rfl
    · rw [if_neg ha]
      rcases List.mem_cons.mp he with rfl | he'
      · exact absurd hei ha
      · cases hf : findMineIndex i t with
        | none => rw [hf] at ih; cases ih he'
        | some k => rfl

/-- A successful removal scan splits the registry at the first match. -/
theorem findMineIndex_eq_some_split (i : Nat) (ml : List (Int × Int × Nat))
    (k : Nat) (h : findMineIndex i ml = some k) :
    ∃ pre en post, ml = pre ++ en :: post ∧ pre.length = k ∧ en.2.2 = i ∧
      ∀ a ∈ pre, a.2.2 ≠ i := by
  induction ml generalizing k with
  | nil => cases h
  | cons a t ih =>
    unfold findMineIndex at h
    by_cases ha : a.2.2 = i
    · rw [if_pos ha] at h
      cases h
      exact ⟨[], a, t, rfl, rfl, ha, by intro x hx; cases hx⟩
    · rw [if_neg ha] at h
      cases hf : findMineIndex i t with
      | none => rw [hf] at h; cases h
      | some k0 =>
        rw [hf] at h
        simp only [Option.map_some'] at h
        have hk := Option.some.inj h
        obtain ⟨pre, en, post, hsplit, hlen, hid, hpre⟩ := ih k0 hf
        refine ⟨a :: pre, en, post, by rw [hsplit]; rfl,
          by rw [List.length_cons, hlen, hk], hid, ?_⟩
        intro x hx
        rcases List.mem_cons.mp hx with rfl | hx'
        · exact ha
        · exact hpre x hx'

/-- What `remove_mine_location` does under distinct registry ids: the
matrix is untouched, the registry shrinks by one entry (a sublist), and
no surviving entry carries the removed id. -/
theorem remove_spec (cb cb2 : Cuboid) (i : Nat)
    (hnd : (cb.mine_locations.map (fun e => e.2.2)).Nodup)
    (h : cb.remove_mine_location i = some cb2) :
    cb2.matrix = cb.matrix ∧ cb2.dimensions = cb.dimensions ∧
    cb2.mine_locations.Sublist cb.mine_locations ∧
    ∀ e ∈ cb2.mine_locations, e.2.2 ≠ i := by
  unfold Cuboid.remove_mine_location at h
  rcases Option.map_eq_some'.mp h with ⟨l', hpop, heq⟩
  subst heq
  refine ⟨rfl, rfl, ?_, ?_⟩
  · unfold pyPop at hpop
    split at hpop
    · cases hpop
      exact List.eraseIdx_sublist _ _
    · cases hpop
  · cases hfi : findMineIndex i cb.mine_locations with
    | none =>
      have habs : ∀ e ∈ cb.mine_locations, e.2.2 ≠ i := by
        intro e he hei
        have := findMineIndex_isSome_of_mem i cb.mine_locations e he hei
        rw [hfi] at this
        cases this
      rw [hfi] at hpop
      unfold pyPop at hpop
      split at hpop
      · cases hpop
        intro e he
        exact habs e (List.mem_of_mem_eraseIdx he)
      · cases hpop
    | some k =>
      obtain ⟨pre, en, post, hsplit, hlen, hid, hpre⟩ :=
        findMineIndex_eq_some_split i cb.mine_locations k hfi
      rw [hfi] at hpop
      unfold pyPop at hpop
      split at hpop
      · cases hpop
        rw [hsplit, ← hlen]
        simp only [Option.getD_some]
        rw [eraseIdx_append_length]
        rw [hsplit, List.map_append, List.map_cons] at hnd
        have hmid := List.nodup_cons.mp (List.nodup_middle.mp hnd)
        intro e he hei
        have : e.2.2 ∈ (pre ++ post).map (fun x => x.2.2) :=
          List.mem_map_of_mem (fun x => x.2.2) he
        rw [List.map_append] at this
        rw [hei, ← hid] at this
        exact hmid.1 this
      · cases hpop

/-- A cell looked up by position is one of the cuboid's cells. -/
theorem cellAt_mem (cb : Cuboid) (p : Nat × Nat) (c : Cubby)
    (h : cb.cellAt p = some c) : c ∈ cb.cells := by
  unfold Cuboid.cellAt at h
  rcases Option.bind_eq_some.mp h with ⟨row, hrow, hc⟩
  exact List.mem_flatten.mpr ⟨row, List.get?_mem hrow, List.get?_mem hc⟩

/-- The cells of `mapCellById` are the mapped cells; registry and
dimensions are untouched. -/
theorem mapCellById_spec (cb : Cuboid) (i : Nat) (f : Cubby → Cubby) :
    (cb.mapCellById i f).cells
        = cb.cells.map (fun c => if c.id = i then f c else c)
    ∧ (cb.mapCellById i f).mine_locations = cb.mine_locations
    ∧ (cb.mapCellById i f).dimensions = cb.dimensions :=
  ⟨(List.map_flatten _ cb.matrix).symm, rfl, rfl⟩

/-- `fireAt` (one resolved torpedo target) preserves the cuboid
invariant; the registry only ever shrinks. -/
theorem fireAt_inv (s s' : Ship) (p : Nat × Nat) (hInv : CubInv s.cuboid)
    (h : s.fireAt p = some s') :
    CubInv s'.cuboid ∧ s'.cuboid.mine_locations.Sublist s.cuboid.mine_locations := by
  unfold Ship.fireAt at h
  cases hcell : s.cuboid.cellAt p with
  | none => rw [hcell] at h; cases h
  | some c =>
    rw [hcell] at h
    dsimp only at h
    by_cases hdz : c.mine = true ∧ c.z ≠ MINE_PASSED_MARKER
    · rw [if_pos hdz] at h
      simp only [Option.bind_eq_bind, Option.bind_eq_some] at h
      obtain ⟨cb2, hrem, heq⟩ := h
      have hs' : s'.cuboid = cb2 := by cases heq; rfl
      obtain ⟨hinv1, hinv2, hinv3, hinv4, hinv5⟩ := hInv
      set cb1 := s.cuboid.mapCellById c.id Cubby.destroy_result with hcb1
      obtain ⟨hc1cells, hc1ml, hc1dim⟩ := mapCellById_spec s.cuboid c.id Cubby.destroy_result
      -- the guard `fun d => if d.id = c.id then destroy_result d else d` keeps ids
      have hg_id : ∀ d : Cubby,
          ((fun d => if d.id = c.id then d.destroy_result else d) d).id = d.id := by
        intro d
        show (if d.id = c.id then d.destroy_result else d).id = d.id
        by_cases hd : d.id = c.id
        · rw [if_pos hd]; rfl
        · rw [if_neg hd]
      have hnd1 : (cb1.mine_locations.map (fun e => e.2.2)).Nodup := by
        rw [hc1ml]; exact hinv2
      obtain ⟨hmx2, hdim2, hsub2, hnot2⟩ := remove_spec cb1 cb2 c.id hnd1 hrem
      have hc2cells : cb2.cells = cb1.cells := by
        unfold Cuboid.cells
        rw [hmx2]
      have hcmem : c ∈ s.cuboid.cells := cellAt_mem s.cuboid p c hcell
      have hcpassed : c.mine_passed = false := by
        by_contra hmp
        have := (hinv5 c hcmem (Bool.of_not_eq_false hmp)).1
        exact hdz.2 this
      rw [hs']
      have hsubfinal : cb2.mine_locations.Sublist s.cuboid.mine_locations := by
        rw [← hc1ml]; exact hsub2
      refine ⟨⟨?_, ?_, ?_, ?_, ?_⟩, hsubfinal⟩
      · rw [hc2cells, hc1cells, List.map_map]
        have : (Cubby.id ∘ fun c0 => if c0.id = c.id then c0.destroy_result else c0)
            = Cubby.id := by
          funext d
          exact hg_id d
        rw [this]
        exact hinv1
      · exact (hsubfinal.map (fun e => e.2.2)).nodup hinv2
      · intro e' he'
        have he'src : e' ∈ s.cuboid.mine_locations := hsubfinal.mem he'
        obtain ⟨c0, hg0, hm0, hx0, hy0⟩ := hinv3 e' he'src
        have hne : e'.2.2 ≠ c.id := hnot2 e' he'
        have hc0id : c0.id = e'.2.2 := by simpa using List.find?_some hg0
        refine ⟨c0, ?_, hm0, hx0, hy0⟩
        show cb2.cells.find? (fun d => d.id = e'.2.2) = some c0
        have hg0f : s.cuboid.cells.find? (fun d => d.id = e'.2.2) = some c0 := hg0
        rw [hc2cells, hc1cells,
          find?_map_id_pres _ hg_id s.cuboid.cells e'.2.2]
        rw [hg0f]
        simp only [Option.map_some']
        have hneg : ¬c0.id = c.id := by rw [hc0id]; exact hne
        rw [if_neg hneg]
      · intro c1 hc1m hmf
        rw [hc2cells, hc1cells] at hc1m
        obtain ⟨c2, hc2m, heq2⟩ := List.mem_map.mp hc1m
        by_cases hc2i : c2.id = c.id
        · rw [if_pos hc2i] at heq2
          have hc2eq : c2 = c := by
            have hf1 := find?_of_nodup_mem s.cuboid.cells hinv1 c2 hc2m
            have hf2 := find?_of_nodup_mem s.cuboid.cells hinv1 c hcmem
            rw [hc2i] at hf1
            rw [hf1] at hf2
            exact Option.some.inj hf2
          rw [← heq2, hc2eq]
          show c.destroy_result.mine_passed = false
          show c.mine_passed = false
          exact hcpassed
        · rw [if_neg hc2i] at heq2
          rw [← heq2] at hmf ⊢
          exact hinv4 c2 hc2m hmf
      · intro c1 hc1m hp1
        rw [hc2cells, hc1cells] at hc1m
        obtain ⟨c2, hc2m, heq2⟩ := List.mem_map.mp hc1m
        by_cases hc2i : c2.id = c.id
        · rw [if_pos hc2i] at heq2
          have hc2eq : c2 = c := by
            have hf1 := find?_of_nodup_mem s.cuboid.cells hinv1 c2 hc2m
            have hf2 := find?_of_nodup_mem s.cuboid.cells hinv1 c hcmem
            rw [hc2i] at hf1
            rw [hf1] at hf2
            exact Option.some.inj hf2
          rw [← heq2, hc2eq] at hp1
          have : c.mine_passed = true := hp1
          rw [hcpassed] at this
          cases this
        · rw [if_neg hc2i] at heq2
          rw [← heq2] at hp1 ⊢
          exact hinv5 c2 hc2m hp1
    · rw [if_neg hdz] at h
      cases h
      exact ⟨hInv, List.Sublist.refl _⟩

/-- The torpedo-pattern loop preserves the cuboid invariant; the registry
only ever shrinks. -/
theorem firePoints_inv (ps : List (Int × Int)) (s s' : Ship)
    (hInv : CubInv s.cuboid) (h : firePoints s ps = some s') :
    CubInv s'.cuboid ∧ s'.cuboid.mine_locations.Sublist s.cuboid.mine_locations := by
  induction ps generalizing s with
  | nil =>
    simp only [firePoints] at h
    cases h
    exact ⟨hInv, List.Sublist.refl _⟩
  | cons p ps ih =>
    simp only [firePoints, Option.bind_eq_bind, Option.bind_eq_some] at h
    obtain ⟨dirs, hdirs, rest⟩ := h
    obtain ⟨target, htarget, rest2⟩ := rest
    cases target with
    | some pos =>
      simp only [Option.bind_eq_some] at rest2
      obtain ⟨s1, hs1, hrest⟩ := rest2
      obtain ⟨hinv1, hsub1⟩ := fireAt_inv s s1 pos hInv hs1
      obtain ⟨hinv2, hsub2⟩ := ih s1 hinv1 hrest
      exact ⟨hinv2, hsub2.trans hsub1⟩
    | none =>
      simp only [Option.bind_eq_some] at rest2
      obtain ⟨s1, hs1, hrest⟩ := rest2
      cases hs1
      exact ih _ hInv hrest

/-- `_handle_torpedoe` preserves the cuboid invariant; the registry only
ever shrinks. -/
theorem handle_torpedoe_inv (s s' : Ship) (t : List Char)
    (hInv : CubInv s.cuboid) (h : s.handle_torpedoe t = some s') :
    CubInv s'.cuboid ∧ s'.cuboid.mine_locations.Sublist s.cuboid.mine_locations := by
  unfold Ship.handle_torpedoe at h
  simp only [Option.bind_eq_bind, Option.bind_eq_some] at h
  obtain ⟨pattern, hpat, hfp⟩ := h
  have hres := firePoints_inv pattern
    { s with number_of_vollys_fired := s.number_of_vollys_fired + 1 } s' hInv hfp
  exact hres

/-- `_handle_movement` never touches the cuboid. -/
theorem handle_movement_cuboid (s s' : Ship) (m : List Char)
    (h : s.handle_movement m = some s') : s'.cuboid = s.cuboid := by
  unfold Ship.handle_movement at h
  simp only [Option.bind_eq_bind, Option.bind_eq_some] at h
  obtain ⟨v, hv, cur, hcur, nb, hnb, heq⟩ := h
  cases heq
  split <;> rfl

/-- `_handle_command_line` never touches the cuboid. -/
theorem handle_command_line_cuboid (s : Ship) (line : List Char) :
    ((s.handle_command_line line).2.2).cuboid = s.cuboid := by
  simp only [Ship.handle_command_line]
  split <;> rfl

/-- The torpedo stage preserves the cuboid invariant; the registry only
ever shrinks. -/
theorem torpedoStage_inv (t : Option (List Char)) (s s' : Ship)
    (hInv : CubInv s.cuboid) (h : torpedoStage t s = some s') :
    CubInv s'.cuboid ∧ s'.cuboid.mine_locations.Sublist s.cuboid.mine_locations := by
  unfold torpedoStage at h
  cases t with
  | none => cases h; exact ⟨hInv, List.Sublist.refl _⟩
  | some tt =>
    dsimp only at h
    by_cases htt : tt = []
    · rw [if_pos htt] at h
      cases h
      exact ⟨hInv, List.Sublist.refl _⟩
    · rw [if_neg htt] at h
      exact handle_torpedoe_inv s s' tt hInv h

/-- The movement stage never touches the cuboid. -/
theorem movementStage_cuboid (m : Option (List Char)) (s s' : Ship)
    (h : movementStage m s = some s') : s'.cuboid = s.cuboid := by
  unfold movementStage at h
  cases m with
  | none => cases h; rfl
  | some mm =>
    dsimp only at h
    by_cases hmm : mm = []
    · rw [if_pos hmm] at h
      cases h
      rfl
    · rw [if_neg hmm] at h
      exact handle_movement_cuboid s s' mm h

/-- The decay stage preserves the cuboid invariant and the registry. -/
theorem decayStage_inv (s s' : Ship) (hInv : CubInv s.cuboid)
    (h : decayStage s = some s') :
    CubInv s'.cuboid ∧ s'.cuboid.mine_locations = s.cuboid.mine_locations := by
  unfold decayStage at h
  rcases Option.bind_eq_some.mp h with ⟨cb', hcb', heq⟩
  cases heq
  exact update_depths_inv s.cuboid cb' hInv hcb'

/-- C3 helper: `_execute_command` is exactly the torpedo stage, then the
movement stage, then the decay stage, on the parsed command. -/
theorem execute_command_decompose (s : Ship) (cmd : List Char) :
    s.execute_command cmd =
      (torpedoStage (s.handle_command_line cmd).1 ((s.handle_command_line cmd).2.2)).bind
        (fun s2 => (movementStage ((s.handle_command_line cmd).2.1) s2).bind decayStage) := by
  unfold Ship.execute_command torpedoStage movementStage decayStage
  rcases hp : s.handle_command_line cmd with ⟨t, m, s1⟩
  cases t with
  | none =>
    cases m with
    | none => rfl
    | some mm =>
      by_cases hmm : mm = []
      · simp only [if_pos hmm]; rfl
      · simp only [if_neg hmm]; rfl
  | some tt =>
    cases m with
    | none =>
      by_cases htt : tt = []
      · simp only [if_pos htt]; rfl
      · simp only [if_neg htt]; rfl
    | some mm =>
      by_cases htt : tt = []
      · by_cases hmm : mm = []
        · simp only [if_pos htt, if_pos hmm]; rfl
        · simp only [if_pos htt, if_neg hmm]; rfl
      · by_cases hmm : mm = []
        · simp only [if_neg htt, if_pos hmm]; rfl
        · simp only [if_neg htt, if_neg hmm]; rfl

/-- `_execute_command` preserves the cuboid invariant; the registry only
ever shrinks. -/
theorem execute_command_inv (s s' : Ship) (cmd : List Char)
    (hInv : CubInv s.cuboid) (h : s.execute_command cmd = some s') :
    CubInv s'.cuboid ∧ s'.cuboid.mine_locations.Sublist s.cuboid.mine_locations := by
  rw [execute_command_decompose] at h
  rcases Option.bind_eq_some.mp h with ⟨s2, h2, h3⟩
  rcases Option.bind_eq_some.mp h3 with ⟨s3, h4, h5⟩
  have hparse : ((s.handle_command_line cmd).2.2).cuboid = s.cuboid :=
    handle_command_line_cuboid s cmd
  have ht := torpedoStage_inv (s.handle_command_line cmd).1
    ((s.handle_command_line cmd).2.2) s2 (by rw [hparse]; exact hInv) h2
  have hm := movementStage_cuboid ((s.handle_command_line cmd).2.1) s2 s3 h4
  have hd := decayStage_inv s3 s' (by rw [hm]; exact ht.1) h5
  refine ⟨hd.1, ?_⟩
  have hml : s'.cuboid.mine_locations = s3.cuboid.mine_locations := hd.2
  rw [hml, hm]
  have ht2 := ht.2
  rw [hparse] at ht2
  exact ht2

/-- One driver-loop turn preserves the cuboid invariant; the registry
only ever shrinks. -/
theorem turn_inv (s s' : Ship) (cmd : List Char) (hInv : CubInv s.cuboid)
    (h : s.turn cmd = some s') :
    CubInv s'.cuboid ∧ s'.cuboid.mine_locations.Sublist s.cuboid.mine_locations := by
  unfold Ship.turn at h
  have hres := execute_command_inv
    { s with number_of_commands_left := s.number_of_commands_left - 1 } s' cmd hInv h
  exact hres

/-- Any number of turns preserves the cuboid invariant; the registry only
ever shrinks. -/
theorem applyTurns_inv (cmds : List (List Char)) (s s' : Ship)
    (hInv : CubInv s.cuboid) (h : s.applyTurns cmds = some s') :
    CubInv s'.cuboid ∧ s'.cuboid.mine_locations.Sublist s.cuboid.mine_locations := by
  induction cmds generalizing s with
  | nil =>
    simp only [Ship.applyTurns] at h
    cases h
    exact ⟨hInv, List.Sublist.refl _⟩
  | cons c cs ih =>
    simp only [Ship.applyTurns, Option.bind_eq_bind, Option.bind_eq_some] at h
    obtain ⟨s1, h1, hrest⟩ := h
    obtain ⟨hi1, hs1⟩ := turn_inv s s1 c hInv h1
    obtain ⟨hi2, hs2⟩ := ih s1 hi1 hrest
    exact ⟨hi2, hs2.trans hs1⟩

/-- The fields a freshly constructed cell carries. -/
theorem Cubby.init_fields (x y : Int) (ch : Char) (cid : Nat) :
    (Cubby.init x y ch cid).id = cid ∧ (Cubby.init x y ch cid).z = ch ∧
    (Cubby.init x y ch cid).x = x ∧ (Cubby.init x y ch cid).y = y ∧
    (Cubby.init x y ch cid).mine_passed = false ∧
    (ch ≠ EMPTY_SPACE_MARKER → (Cubby.init x y ch cid).mine = true) := by
  unfold Cubby.init
  by_cases h : ch ≠ EMPTY_SPACE_MARKER
  · rw [if_pos h]
    exact ⟨rfl, rfl, rfl, rfl, rfl, fun _ => rfl⟩
  · rw [if_neg h]
    exact ⟨rfl, rfl, rfl, rfl, rfl, fun hc => absurd hc h⟩

/-- A constructed row carries the consecutive ids starting at its first
`cubby_id`. -/
theorem buildRow_ids (y : Nat) (line : List Char) :
    ∀ x cid, (buildRow y x cid line).map Cubby.id = List.range' cid line.length := by
  induction line with
  | nil => intro x cid; rfl
  | cons ch rest ih =>
    intro x cid
    simp only [buildRow, List.map_cons, List.length_cons, List.range'_succ]
    rw [(Cubby.init_fields x y ch cid).1, ih (x + 1) (cid + 1)]

/-- Freshly constructed cells are never passed, and carry a mine exactly
when their symbol is not the empty-space marker. -/
theorem buildRow_cells (y : Nat) (line : List Char) :
    ∀ x cid, ∀ c ∈ buildRow y x cid line,
      c.mine_passed = false ∧ (c.z ≠ EMPTY_SPACE_MARKER → c.mine = true) := by
  induction line with
  | nil => intro x cid c hc; cases hc
  | cons ch rest ih =>
    intro x cid c hc
    rcases List.mem_cons.mp hc with rfl | hc'
    · obtain ⟨_, hz, _, _, hpassed, hmine⟩ := Cubby.init_fields (x : Int) (y : Int) ch cid
      exact ⟨hpassed, by rw [hz]; exact hmine⟩
    · exact ih (x + 1) (cid + 1) c hc'

/-- What the construction row loop produces: consecutive ids over the
flattened matrix, the registry as exactly the non-empty-symbol cells in
construction order, and fresh per-cell facts. -/
theorem buildRows_spec (rows : List (List Char)) :
    ∀ y cid prevLen matrix mines,
      buildRows y cid prevLen rows = some (matrix, mines) →
      matrix.flatten.map Cubby.id = List.range' cid matrix.flatten.length ∧
      mines = (matrix.flatten.filter
        (fun c => c.z ≠ EMPTY_SPACE_MARKER)).map Cubby.mine_location ∧
      (∀ c ∈ matrix.flatten,
        c.mine_passed = false ∧ (c.z ≠ EMPTY_SPACE_MARKER → c.mine = true)) := by
  induction rows with
  | nil =>
    intro y cid prevLen matrix mines h
    simp only [buildRows] at h
    cases h
    exact ⟨rfl, rfl, fun c hc => by cases hc⟩
  | cons line rest ih =>
    intro y cid prevLen matrix mines h
    unfold buildRows at h
    split at h
    · cases h
    · simp only [Option.bind_eq_bind, Option.bind_eq_some] at h
      obtain ⟨⟨mx, ms⟩, hrec, heq⟩ := h
      cases heq
      obtain ⟨hids, hmines, hcells⟩ :=
        ih (y + 1) (cid + line.length) (some line.length) mx ms hrec
      have hrowids := buildRow_ids y line 0 cid
      have hrowlen : (buildRow y 0 cid line).length = line.length := by
        have := congrArg List.length hrowids
        simpa using this
      refine ⟨?_, ?_, ?_⟩
      · rw [List.flatten_cons, List.map_append, hrowids, hids]
        have hstep : cid + line.length = cid + 1 * line.length := by ring
        rw [hstep, List.range'_append]
        rw [List.length_append, hrowlen, Nat.add_comm]
      · rw [List.flatten_cons, List.filter_append, List.map_append]
        rw [← hmines]
        rfl
      · intro c hc
        rw [List.flatten_cons] at hc
        rcases List.mem_append.mp hc with hc' | hc'
        · exact buildRow_cells y line 0 cid c hc'
        · exact hcells c hc'

/-- C10 helper: a successfully constructed cuboid satisfies the
invariant, and its registry holds exactly the cells whose symbol is not
the empty-space marker, in construction order. -/
theorem Cuboid_init_inv (lines : List (List Char)) (cb : Cuboid)
    (h : Cuboid.init lines = some cb) :
    CubInv cb ∧ cb.mine_locations
      = (cb.cells.filter (fun c => c.z ≠ EMPTY_SPACE_MARKER)).map Cubby.mine_location := by
  unfold Cuboid.init at h
  simp only [Option.bind_eq_bind, Option.bind_eq_some] at h
  obtain ⟨⟨matrix, mines⟩, hrec, hmatch⟩ := h
  obtain ⟨hids, hmines, hcells⟩ := buildRows_spec _ 0 0 none matrix mines hrec
  cases matrix with
  | nil => cases hmatch
  | cons r0 rest =>
    cases hmatch
    have hnd : (((r0 :: rest).flatten).map Cubby.id).Nodup := by
      rw [hids]
      exact List.nodup_range' _ _
    have hcomp : ((fun e => e.2.2) ∘ Cubby.mine_location) = Cubby.id := rfl
    refine ⟨⟨hnd, ?_, ?_, ?_, ?_⟩, hmines⟩
    · rw [hmines, List.map_map, hcomp]
      exact ((List.filter_sublist _).map Cubby.id).nodup hnd
    · intro e he
      rw [hmines] at he
      obtain ⟨c, hcf, rfl⟩ := List.mem_map.mp he
      obtain ⟨hcmem, hz⟩ := List.mem_filter.mp hcf
      refine ⟨c, find?_of_nodup_mem _ hnd c hcmem, ?_, rfl, rfl⟩
      exact (hcells c hcmem).2 (by simpa using hz)
    · intro c hc _
      exact (hcells c hc).1
    · intro c hc hp
      rw [(hcells c hc).1] at hp
      cases hp

/-- One per-id decay step never changes any cell's mine flag. -/
theorem updateDepthById_mine_flags (cb cb1 : Cuboid) (i : Nat)
    (h : cb.updateDepthById i = some cb1) (j : Nat) :
    (cb1.getById j).map Cubby.mine = (cb.getById j).map Cubby.mine := by
  obtain ⟨_, _, hcells⟩ := updateDepthById_spec cb cb1 i h
  rw [updateDepthById_getById cb cb1 i h j]
  cases hg : cb.getById j with
  | none => rfl
  | some c =>
    simp only [Option.some_bind]
    by_cases hci : c.id = i
    · rw [if_pos hci]
      have hcmem : c ∈ cb.cells := List.mem_of_find?_eq_some hg
      obtain ⟨c2, hc2⟩ := updCell_success_mem _ cb.cells cb1.cells hcells c hcmem
      rw [if_pos hci] at hc2
      rw [hc2]
      simp only [Option.map_some']
      rw [(update_depth_fields c c2 hc2).2.2.2]
    · rw [if_neg hci]

/-- A full decay pass never changes any cell's mine flag. -/
theorem update_depths_mine_flags (cb cb' : Cuboid)
    (h : cb.update_depths = some cb') (j : Nat) :
    (cb'.getById j).map Cubby.mine = (cb.getById j).map Cubby.mine := by
  unfold Cuboid.update_depths at h
  generalize hes : cb.mine_locations = es at h
  clear hes
  induction es generalizing cb with
  | nil =>
    simp only [updateDepthsLoop] at h
    cases h
    rfl
  | cons e es ih =>
    simp only [updateDepthsLoop, Option.bind_eq_bind, Option.bind_eq_some] at h
    obtain ⟨cb1, hcb1, hloop⟩ := h
    rw [ih cb1 hloop]
    exact updateDepthById_mine_flags cb cb1 e.2.2 hcb1 j

/-- `Ship.__init__` stores the cuboid it is given. -/
theorem Ship_init_cuboid (cb : Cuboid) (script : List (List Char)) (s : Ship)
    (h : Ship.init cb script = some s) : s.cuboid = cb := by
  simp only [Ship.init] at h
  cases h1 : pyIdx cb.matrix ((cb.dimensions.2.1 : Int) / 2) with
  | none => rw [h1] at h; cases h
  | some row =>
    rw [h1] at h
    dsimp only at h
    cases h2 : pyIdx row ((cb.dimensions.1 : Int) / 2) with
    | none => rw [h2] at h; cases h
    | some c =>
      rw [h2] at h
      cases h
      rfl

/-- C3: `_execute_command` applies the torpedo stage first, then the
movement stage, then exactly one unconditional decay stage; a turn whose
parsed torpedo is absent therefore leaves every mine flag and the whole
registry unchanged (movements alone never destroy mines); and on field
`"a"` the `gamma` volley destroys the rank-1 mine before its same-turn
decay, yielding PASS 5 where decay-first would have passed the mine. -/
theorem C3_fire_then_move_then_decay :
    (∀ (s : Ship) (cmd : List Char), s.execute_command cmd =
      (torpedoStage (s.handle_command_line cmd).1 ((s.handle_command_line cmd).2.2)).bind
        (fun s2 => (movementStage ((s.handle_command_line cmd).2.1) s2).bind decayStage))
    ∧ (∀ (s : Ship) (cmd : List Char) (s' : Ship),
        (s.handle_command_line cmd).1 = none →
        s.execute_command cmd = some s' →
        s'.cuboid.mine_locations = s.cuboid.mine_locations ∧
        ∀ i, (s'.cuboid.getById i).map Cubby.mine = (s.cuboid.getById i).map Cubby.mine)
    ∧ runGame [['a']] [GAMMA] = some (some (PASS, 5)) := by
  refine ⟨execute_command_decompose, ?_, by decide⟩
  intro s cmd s' hT h
  rw [execute_command_decompose] at h
  rcases Option.bind_eq_some.mp h with ⟨s2, h2, h3⟩
  rcases Option.bind_eq_some.mp h3 with ⟨s3, h4, h5⟩
  rw [hT] at h2
  unfold torpedoStage at h2
  cases h2
  have hparse : ((s.handle_command_line cmd).2.2).cuboid = s.cuboid :=
    handle_command_line_cuboid s cmd
  have hmv : s3.cuboid = ((s.handle_command_line cmd).2.2).cuboid :=
    movementStage_cuboid _ _ s3 h4
  unfold decayStage at h5
  rcases Option.bind_eq_some.mp h5 with ⟨cb', hcb', heq⟩
  cases heq
  have hframe := updateDepthsLoop_frame s3.cuboid.mine_locations s3.cuboid cb' hcb'
  constructor
  · show cb'.mine_locations = s.cuboid.mine_locations
    rw [hframe.1, hmv, hparse]
  · intro i
    show (cb'.getById i).map Cubby.mine = (s.cuboid.getById i).map Cubby.mine
    rw [update_depths_mine_flags s3.cuboid cb' hcb' i, hmv, hparse]

/-- C3 witness: the movement-only line `"north"` on the one-mine field
leaves the registry and the mine flags unchanged through the turn. -/
theorem C3_witness :
    (shipA0.execute_command NORTH =
      (torpedoStage (shipA0.handle_command_line NORTH).1
          ((shipA0.handle_command_line NORTH).2.2)).bind
        (fun s2 => (movementStage ((shipA0.handle_command_line NORTH).2.1) s2).bind
          decayStage))
    ∧ (shipA0N.cuboid.mine_locations = shipA0.cuboid.mine_locations ∧
        ∀ i, (shipA0N.cuboid.getById i).map Cubby.mine
          = (shipA0.cuboid.getById i).map Cubby.mine) :=
  ⟨C3_fire_then_move_then_decay.1 shipA0 NORTH,
   C3_fire_then_move_then_decay.2.1 shipA0 NORTH shipA0N (by decide) (by decide)⟩

/-- C10: a freshly constructed cuboid satisfies the registry invariant —
every entry `(x, y, c)` dereferences to a cell with `mine = true` at
exactly those coordinates — and its registry holds exactly the cells
whose field symbol is not the empty-space marker; and any number of
executed turns preserves the invariant while only ever removing registry
entries (the final registry is a sublist of the initial one). -/
theorem C10_registry_invariant :
    (∀ (lines : List (List Char)) (cb : Cuboid), Cuboid.init lines = some cb →
      CubInv cb ∧
      (∀ e ∈ cb.mine_locations, ∃ c, cb.getById e.2.2 = some c ∧
        c.mine = true ∧ c.x = e.1 ∧ c.y = e.2.1) ∧
      cb.mine_locations
        = (cb.cells.filter (fun c => c.z ≠ EMPTY_SPACE_MARKER)).map Cubby.mine_location)
    ∧ (∀ (s : Ship) (cmds : List (List Char)) (s' : Ship),
        CubInv s.cuboid → s.applyTurns cmds = some s' →
        CubInv s'.cuboid ∧
        (∀ e ∈ s'.cuboid.mine_locations, ∃ c, s'.cuboid.getById e.2.2 = some c ∧
          c.mine = true ∧ c.x = e.1 ∧ c.y = e.2.1) ∧
        s'.cuboid.mine_locations.Sublist s.cuboid.mine_locations) := by
  constructor
  · intro lines cb h
    obtain ⟨hinv, hchar⟩ := Cuboid_init_inv lines cb h
    exact ⟨hinv, hinv.2.2.1, hchar⟩
  · intro s cmds s' hInv h
    obtain ⟨hinv, hsub⟩ := applyTurns_inv cmds s s' hInv h
    exact ⟨hinv, hinv.2.2.1, hsub⟩

/-- C10 witness: the field `"ab"` satisfies the construction half, and
the one-turn `gamma` run on field `"a"` satisfies the preservation half
concretely. -/
theorem C10_witness :
    (CubInv cbAB ∧
      (∀ e ∈ cbAB.mine_locations, ∃ c, cbAB.getById e.2.2 = some c ∧
        c.mine = true ∧ c.x = e.1 ∧ c.y = e.2.1) ∧
      cbAB.mine_locations
        = (cbAB.cells.filter (fun c => c.z ≠ EMPTY_SPACE_MARKER)).map Cubby.mine_location)
    ∧ (CubInv shipG1.cuboid ∧
      (∀ e ∈ shipG1.cuboid.mine_locations, ∃ c, shipG1.cuboid.getById e.2.2 = some c ∧
        c.mine = true ∧ c.x = e.1 ∧ c.y = e.2.1) ∧
      shipG1.cuboid.mine_locations.Sublist shipG.cuboid.mine_locations) :=
  ⟨C10_registry_invariant.1 [['a', 'b']] cbAB (by decide),
   C10_registry_invariant.2 shipG [GAMMA] shipG1
     ((Cuboid_init_inv [['a']] shipG.cuboid (by decide)).1) (by decide)⟩

/-- Mid-alphabet marker indices (1..51) hold letters, never the
sentinel. -/
theorem markers_mid_not_star (i : Int) (h1 : 1 ≤ i) (h2 : i ≤ 51) :
    ∃ ch, pyIdx MINE_MARKERS i = some ch ∧ ch ≠ MINE_PASSED_MARKER := by
  have hlen2 : ((MINE_MARKERS.length : Nat) : Int) = 53 := by decide
  have hbound : ∀ n : Nat, n < 52 → 1 ≤ n →
      ((MINE_MARKERS.get? n).isSome = true ∧
        MINE_MARKERS.get? n ≠ some MINE_PASSED_MARKER) := by decide
  unfold pyIdx
  rw [if_pos (⟨by omega, by omega⟩ : 0 ≤ i ∧ i < (MINE_MARKERS.length : Int))]
  obtain ⟨hs, hne⟩ := hbound i.toNat (by omega) (by omega)
  cases hget : MINE_MARKERS.get? i.toNat with
  | none => rw [hget] at hs; cases hs
  | some ch =>
    refine ⟨ch, rfl, ?_⟩
    intro heq
    rw [hget, heq] at hne
    exact hne rfl

/-- C2: one `update_depths` pass advances every still-active registered
mine's depth counter by exactly one — its rank, the remaining turns to
passing `-depth - 1`, drops by exactly one — whatever command ran; a mine
whose rank reaches zero (`depth = -2`) gets `mine_passed = true` and the
sentinel symbol, and a further `update_depth` leaves it completely
unchanged; and in every state reachable from a constructed game, a cell
without a mine (destroyed or empty) never has `mine_passed` set. -/
theorem C2_mine_decay :
    (∀ (cb cb' : Cuboid) (e : Int × Int × Nat) (c : Cubby) (d : Int),
      cb.update_depths = some cb' →
      (cb.mine_locations.map (fun x => x.2.2)).Nodup →
      e ∈ cb.mine_locations →
      cb.getById e.2.2 = some c →
      c.mine_passed = false → c.depth = some d → -53 ≤ d → d ≤ -2 →
      (d = -2 → ∃ c', cb'.getById e.2.2 = some c' ∧ c'.mine_passed = true ∧
        c'.z = MINE_PASSED_MARKER ∧ c'.depth = some d ∧ c'.update_depth = some c') ∧
      (d ≤ -3 → ∃ c', cb'.getById e.2.2 = some c' ∧ c'.depth = some (d + 1) ∧
        c'.mine_passed = false ∧ c'.z ≠ MINE_PASSED_MARKER))
    ∧ (∀ (lines script cmds : List (List Char)) (cb : Cuboid) (s0 s' : Ship),
        Cuboid.init lines = some cb → Ship.init cb script = some s0 →
        s0.applyTurns cmds = some s' →
        ∀ c ∈ s'.cuboid.cells, c.mine = false → c.mine_passed = false) := by
  constructor
  · intro cb cb' e c d h hnd he hc hp hd hlo hhi
    have hG : cb'.getById e.2.2 = c.update_depth := by
      rw [updateDepthsLoop_getById_target cb.mine_locations cb cb' h e he hnd, hc]
      rfl
    constructor
    · intro hd2
      subst hd2
      have h0 : (-(-2 : Int) - 2) = 0 := by norm_num
      have hstar : pyIdx MINE_MARKERS 0 = some MINE_PASSED_MARKER := by decide
      have hud : c.update_depth
          = some { c with z := MINE_PASSED_MARKER, mine_passed := true } := by
        unfold Cubby.update_depth
        rw [hd]
        simp only [Option.bind_eq_bind, Option.some_bind]
        rw [h0, hstar]
        simp
      refine ⟨{ c with z := MINE_PASSED_MARKER, mine_passed := true },
        by rw [hG, hud], rfl, rfl, hd, ?_⟩
      unfold Cubby.update_depth
      dsimp only
      rw [hd]
      simp only [Option.bind_eq_bind, Option.some_bind]
      rw [h0, hstar]
      simp
    · intro hd3
      obtain ⟨ch, hch, hchne⟩ := markers_mid_not_star (-d - 2) (by omega) (by omega)
      have hud : c.update_depth = some { c with z := ch, depth := some (d + 1) } := by
        unfold Cubby.update_depth
        rw [hd]
        simp only [Option.bind_eq_bind, Option.some_bind]
        rw [hch]
        simp only [Option.some_bind]
        rw [if_neg hchne]
        rfl
      exact ⟨{ c with z := ch, depth := some (d + 1) },
        by rw [hG, hud], rfl, hp, hchne⟩
  · intro lines script cmds cb s0 s' hcb hs0 hturns c hc hm
    obtain ⟨hinv0, _⟩ := Cuboid_init_inv lines cb hcb
    have hsc : s0.cuboid = cb := Ship_init_cuboid cb script s0 hs0
    obtain ⟨hinv', _⟩ := applyTurns_inv cmds s0 s' (by rw [hsc]; exact hinv0) hturns
    exact hinv'.2.2.2.1 c hc hm

/-- C2 witness: on the field `"bc"` the rank-2 mine decays to rank 1, and
on the field `"a"` the rank-1 mine passes and freezes; the empty-script
run on `"a"` has no passed non-mine cell. -/
theorem C2_witness :
    (∃ c', cbBCDec.getById 0 = some c' ∧ c'.depth = some (-2) ∧
      c'.mine_passed = false ∧ c'.z ≠ MINE_PASSED_MARKER)
    ∧ (∃ c', cbADec.getById 0 = some c' ∧ c'.mine_passed = true ∧
      c'.z = MINE_PASSED_MARKER ∧ c'.depth = some (-2) ∧ c'.update_depth = some c')
    ∧ (∀ c ∈ shipA0.cuboid.cells, c.mine = false → c.mine_passed = false) := by
  refine ⟨?_, ?_, ?_⟩
  · have := (C2_mine_decay.1 cbBC cbBCDec (0, 0, 0)
      { x := 0, y := 0, z := 'b', id := 0, depth := some (-3), mine := true,
        mine_passed := false } (-3)
      (by decide) (by decide) (by decide) (by decide) (by decide) (by decide)
      (by decide) (by decide)).2 (by decide)
    simpa using this
  · have := (C2_mine_decay.1 cbA cbADec (0, 0, 0) cellA (-2)
      (by decide) (by decide) (by decide) (by decide) (by decide) (by decide)
      (by decide) (by decide)).1 (by decide)
    simpa using this
  · exact C2_mine_decay.2 [['a']] [] [] shipA0.cuboid shipA0 shipA0
      (by decide) (by decide) (by decide)

end Yewno
